import Mathlib

/-!
# Array rotation (`rotate.go`): a shallow embedding and its verification

The Go file `基础/算法/轮转数组/rotate.go` holds three in-place right rotations of an
`[]int` (`rotate`, `reverse`, `ringReplace`) and two helpers (`reverseSlice`, `gcd`).

Conventions of the embedding:

* a slice is a `List Int`; a Go `int` is an `Int` (mathematical integers), except in
  `rotate64`, where the addition of the copy loop wraps around at 64 bits; the sum `i+k`
  of `rotate` is the only operation of the file that can leave the range of an `int`
  (`reverse` and `ringReplace` reduce `k` modulo the length before they use it);
* `%` is Go's truncated remainder (`Int.tmod`), and a zero divisor is a run-time fault;
* an index outside `[0, len)` and a slice bound outside `[0, len]` are run-time faults;
* a counted loop `for i := 0; i < bound; i++` whose body changes neither `i` nor `bound`
  runs its body for `i = 0, 1, ..., bound - 1` (`forLoop`);
* a condition-controlled loop (`for l < r`, `for cur != start`, `for a != 0`) takes a fuel
  argument: every execution of the loop body uses one unit, and running out of fuel is
  the separate outcome `Fault.outOfFuel`, which is not a Go behaviour;
* `ringReplaceTr` additionally records, for every pass of the outer loop, the indices
  written in that pass, in the order of the writes; the record does not influence the run.
-/

namespace RotateArray

/-- The ways a run can stop without a result. -/
inductive Fault where
  | divideByZero
  | indexOutOfRange
  | sliceOutOfRange
  | outOfFuel
  deriving DecidableEq, Repr

/-- A run either faults or yields a value. -/
abbrev Run (α : Type) := Except Fault α

deriving instance DecidableEq for Except

/-- Go's `a % b` on `int`: truncated remainder, a fault when `b = 0`. -/
def goMod (a b : Int) : Run Int :=
  if b = 0 then .error .divideByZero else .ok (Int.tmod a b)

/-- The read `nums[i]`. -/
def readAt (nums : List Int) (i : Int) : Run Int :=
  if 0 ≤ i ∧ i < nums.length then .ok (nums.getD i.toNat 0) else .error .indexOutOfRange

/-- The write `nums[i] = v`. -/
def writeAt (nums : List Int) (i : Int) (v : Int) : Run (List Int) :=
  if 0 ≤ i ∧ i < nums.length then .ok (nums.set i.toNat v) else .error .indexOutOfRange

/-- The counted loop `for i := start; ...; i++` with `rem` passes left: the body is run at
`i = start, start + 1, ...`, and a fault in the body ends the run. -/
def forLoop {σ : Type} (body : Int → σ → Run σ) : Nat → Int → σ → Run σ
  | 0, _, s => .ok s
  | rem + 1, i, s =>
    match body i s with
    | .error e => .error e
    | .ok s1 => forLoop body rem (i + 1) s1

/-- The condition `k == 0 || k%len(nums) == 0` of the first line of `rotate` and of
`reverse`; `||` does not evaluate its right operand when `k == 0`. -/
def isNoop (nums : List Int) (k : Int) : Run Bool :=
  if k = 0 then .ok true
  else do
    let r ← goMod k nums.length
    pure (decide (r = 0))

/-- Wrap-around of a mathematical integer to a 64-bit two's-complement `int`. -/
def wrap64 (x : Int) : Int := (x + 2 ^ 63) % 2 ^ 64 - 2 ^ 63

/-- Addition of two Go `int`s on a 64-bit platform. -/
def add64 (a b : Int) : Int := wrap64 (a + b)

/-- The body of `rotate`, with the integer addition `add` of `i+k` as a parameter. -/
def rotateWith (add : Int → Int → Int) (nums : List Int) (k : Int) : Run (List Int) := do
  if (← isNoop nums k) then
    return nums
  let newNums : List Int := List.replicate nums.length 0
  let newNums ← forLoop (fun i (acc : List Int) => do
      let j ← goMod (add i k) nums.length
      let v ← readAt nums i
      writeAt acc j v) nums.length 0 newNums
  forLoop (fun i (acc : List Int) => do
      let v ← readAt newNums i
      writeAt acc i v) nums.length 0 nums

/-- The function `rotate` over mathematical integers: the reading in which `i + k` does not
overflow. It agrees with `rotate64` wherever no sum `i + k` exceeds the largest `int`,
wherever the first line returns, and for every negative `k`. -/
def rotate (nums : List Int) (k : Int) : Run (List Int) :=
  rotateWith (fun a b => a + b) nums k

/-- The function `rotate` with the 64-bit addition of a Go `int`. -/
def rotate64 (nums : List Int) (k : Int) : Run (List Int) :=
  rotateWith add64 nums k

/-- The loop `for l < r { swap; l++; r-- }` of `reverseSlice`. -/
def reverseSliceLoop : Nat → List Int → Int → Int → Run (List Int)
  | 0, nums, l, r => if l < r then .error .outOfFuel else .ok nums
  | fuel + 1, nums, l, r =>
    if l < r then do
      let tmp ← readAt nums l
      let x ← readAt nums r
      let nums ← writeAt nums l x
      let nums ← writeAt nums r tmp
      reverseSliceLoop fuel nums (l + 1) (r - 1)
    else .ok nums

/-- The function `reverseSlice`. -/
def reverseSlice (fuel : Nat) (nums : List Int) : Run (List Int) :=
  reverseSliceLoop fuel nums 0 ((nums.length : Int) - 1)

/-- The function `reverse`. The slices `nums[:k]` and `nums[k:]` share the array of `nums`,
so reversing them in place rewrites the two parts of `nums`; the slice expressions fault
when `k` is outside `[0, len(nums)]` (here `k` is below `len(nums) <= cap(nums)`). -/
def reverse (fuel : Nat) (nums : List Int) (k : Int) : Run (List Int) := do
  if (← isNoop nums k) then
    return nums
  let k ← goMod k nums.length
  let nums ← reverseSlice fuel nums
  if ¬ (0 ≤ k ∧ k ≤ nums.length) then
    throw .sliceOutOfRange
  let left ← reverseSlice fuel (nums.take k.toNat)
  let nums := left ++ nums.drop k.toNat
  let right ← reverseSlice fuel (nums.drop k.toNat)
  return nums.take k.toNat ++ right

/-- The loop `for a != 0 { a, b = b%a, a }` of `gcd`. -/
def gcdLoop : Nat → Int → Int → Run Int
  | 0, a, b => if a ≠ 0 then .error .outOfFuel else .ok b
  | fuel + 1, a, b =>
    if a ≠ 0 then do
      let a1 ← goMod b a
      gcdLoop fuel a1 a
    else .ok b

/-- The function `gcd`. -/
def gcd (fuel : Nat) (a b : Int) : Run Int := gcdLoop fuel a b

/-- The variables of the inner loop of `ringReplace`, and the indices written so far in
the current pass of the outer loop. -/
structure Cursor where
  nums : List Int
  cur : Int
  preVal : Int
  curVal : Int
  written : List Int
  deriving DecidableEq, Repr

/-- The loop `for cur != start { ... }` of `ringReplace`. -/
def ringInner (n k start : Int) : Nat → Cursor → Run Cursor
  | 0, c => if c.cur ≠ start then .error .outOfFuel else .ok c
  | fuel + 1, c =>
    if c.cur ≠ start then do
      let nums ← writeAt c.nums c.cur c.preVal
      let preVal := c.curVal
      let cur ← goMod (c.cur + k) n
      let curVal ← readAt nums cur
      ringInner n k start fuel ⟨nums, cur, preVal, curVal, c.written ++ [c.cur]⟩
    else .ok c

/-- One pass of the outer loop of `ringReplace`, for the loop variable `i`. -/
def ringPass (fuel : Nat) (n k : Int) (i : Int) (st : List Int × List (List Int)) :
    Run (List Int × List (List Int)) := do
  let start := i
  let cur ← goMod (i + k) n
  let preVal ← readAt st.1 start
  let curVal ← readAt st.1 cur
  let c ← ringInner n k start fuel ⟨st.1, cur, preVal, curVal, []⟩
  let nums ← writeAt c.nums c.cur c.preVal
  return (nums, st.2 ++ [c.written ++ [c.cur]])

/-- The function `ringReplace`, returning the final slice together with the record of the
written indices: one list per pass of the outer loop. -/
def ringReplaceTr (fuel : Nat) (nums : List Int) (k : Int) :
    Run (List Int × List (List Int)) := do
  let n : Int := nums.length
  let k ← goMod k n
  let time ← gcd fuel k n
  forLoop (ringPass fuel n k) time.toNat 0 (nums, [])

/-- The function `ringReplace`. -/
def ringReplace (fuel : Nat) (nums : List Int) (k : Int) : Run (List Int) := do
  let r ← ringReplaceTr fuel nums k
  return r.1

/-- Right rotation by `k` places, through `List.rotate` (a left rotation): the reference
against which the three functions are compared. -/
def rotR (nums : List Int) (k : Nat) : List Int :=
  nums.rotate (nums.length - k % nums.length)

/-- Writing `f c` at every index `c` of `l`, from left to right. -/
def applyWrites (f : Nat → Int) (l : List Nat) (a : List Int) : List Int :=
  l.foldl (fun acc c => acc.set c (f c)) a

/-- The index reached from `i` after `t` steps of `cur := (cur + r) % n`. -/
def orbit (n r i t : Nat) : Nat := (i + t * r) % n

/-- The indices `orbit n r i 1, ..., orbit n r i (n / gcd r n)`: the cells that the pass of
the outer loop with `start = i` writes, in the order of the writes. -/
def cycleOf (n r i : Nat) : List Nat :=
  (List.range' 1 (n / Nat.gcd r n)).map (orbit n r i)

/-- The record of written indices expected of `ringReplace` on a slice of length `n`
with the reduced step `r`: one cycle for each `start` below `gcd r n`. -/
def expectedRecord (n r : Nat) : List (List Int) :=
  (List.range' 0 (Nat.gcd r n)).map (fun i => (cycleOf n r i).map Int.ofNat)

/-- Whether a run ended in a Go run-time error (a panic): a fault other than the
exhaustion of the fuel. -/
def isRuntimeError {α : Type} : Run α → Bool
  | .error .outOfFuel => false
  | .error _ => true
  | .ok _ => false

/-! ## Elementary facts about the primitives -/

theorem goMod_nat (a b : Nat) (hb : 0 < b) : goMod (a : Int) (b : Int) = .ok ((a % b : Nat) : Int) := by
  have hb0 : (b : Int) ≠ 0 := by omega
  have ht : Int.tmod (a : Int) (b : Int) = ((a % b : Nat) : Int) := (Int.ofNat_tmod a b).symm
  simp [goMod, hb0, ht]

theorem readAt_nat (nums : List Int) (p : Nat) (hp : p < nums.length) :
    readAt nums (p : Int) = .ok (nums.getD p 0) := by
  simp [readAt, hp]

theorem writeAt_nat (nums : List Int) (p : Nat) (v : Int) (hp : p < nums.length) :
    writeAt nums (p : Int) v = .ok (nums.set p v) := by
  simp [writeAt, hp]

theorem getD_set_eq (l : List Int) (i j : Nat) (a : Int) :
    (l.set i a).getD j 0 = if i = j ∧ i < l.length then a else l.getD j 0 := by
  simp only [List.getD_eq_getElem?_getD, List.getElem?_set]
  by_cases h : i = j
  · subst h
    by_cases h2 : i < l.length
    · simp [h2]
    · simp [h2, List.getElem?_eq_none (Nat.le_of_not_lt h2)]
  · simp [h]

theorem ext_getD {l1 l2 : List Int} (hlen : l1.length = l2.length)
    (h : ∀ p, p < l1.length → l1.getD p 0 = l2.getD p 0) : l1 = l2 := by
  apply List.ext_getElem hlen
  intro p h1 h2
  have := h p h1
  simpa [List.getD_eq_getElem?_getD, List.getElem?_eq_getElem h1,
    List.getElem?_eq_getElem h2] using this

theorem length_applyWrites (f : Nat → Int) (l : List Nat) (a : List Int) :
    (applyWrites f l a).length = a.length := by
  induction l generalizing a with
  | nil => rfl
  | cons c l ih => simp [applyWrites, List.foldl_cons] at ih ⊢; rw [ih]; simp

theorem applyWrites_append (f : Nat → Int) (l1 l2 : List Nat) (a : List Int) :
    applyWrites f (l1 ++ l2) a = applyWrites f l2 (applyWrites f l1 a) := by
  simp [applyWrites, List.foldl_append]

theorem getD_applyWrites (f : Nat → Int) (l : List Nat) (a : List Int) (p : Nat)
    (hp : p < a.length) :
    (applyWrites f l a).getD p 0 = if p ∈ l then f p else a.getD p 0 := by
  induction l generalizing a with
  | nil => simp [applyWrites]
  | cons c l ih =>
    have h1 : applyWrites f (c :: l) a = applyWrites f l (a.set c (f c)) := rfl
    rw [h1, ih (a.set c (f c)) (by simpa using hp), getD_set_eq]
    by_cases hpl : p ∈ l
    · simp [hpl]
    · by_cases hc : c = p
      · subst hc; simp [hpl, hp]
      · have : ¬ p = c := fun h => hc h.symm
        simp [hpl, hc, this]

theorem getD_rotR (nums : List Int) (k p : Nat) (hp : p < nums.length) :
    (rotR nums k).getD p 0 =
      nums.getD ((p + (nums.length - k % nums.length)) % nums.length) 0 := by
  have h1 : p < (rotR nums k).length := by simpa [rotR] using hp
  have h2 : (p + (nums.length - k % nums.length)) % nums.length < nums.length :=
    Nat.mod_lt _ (by omega)
  simp only [List.getD_eq_getElem?_getD, List.getElem?_eq_getElem h1,
    List.getElem?_eq_getElem h2, Option.getD_some]
  simp [rotR, List.getElem_rotate]

theorem length_rotR (nums : List Int) (k : Nat) : (rotR nums k).length = nums.length := by
  simp [rotR]

/-! ## Index arithmetic modulo the length -/

theorem add_mod_cases (a b n : Nat) (ha : a < n) (hb : b < n) :
    (a + b) % n = if a + b < n then a + b else a + b - n := by
  by_cases h : a + b < n
  · simp [h, Nat.mod_eq_of_lt h]
  · simp only [h, if_false]
    rw [Nat.mod_eq_sub_mod (Nat.le_of_not_lt h), Nat.mod_eq_of_lt (by omega)]

theorem add_mod_reduce (j k n : Nat) (hj : j < n) : (j + k) % n = (j + k % n) % n := by
  rw [Nat.add_mod, Nat.mod_eq_of_lt hj]

/-- Going `k` places forward and then `n - k % n` places forward is the identity. -/
theorem fwd_back (j k n : Nat) (hj : j < n) : ((j + k) % n + (n - k % n)) % n = j := by
  have hn : 0 < n := by omega
  have hr : k % n < n := Nat.mod_lt _ hn
  rw [add_mod_reduce j k n hj, add_mod_cases j (k % n) n hj hr]
  by_cases h : j + k % n < n
  · simp only [h, if_true]
    have : j + k % n + (n - k % n) = j + n := by omega
    rw [this, Nat.add_mod_right, Nat.mod_eq_of_lt hj]
  · simp only [h, if_false]
    have : j + k % n - n + (n - k % n) = j := by omega
    rw [this, Nat.mod_eq_of_lt hj]

/-- Going `n - k % n` places forward and then `k` places forward is the identity. -/
theorem back_fwd (p k n : Nat) (hp : p < n) : ((p + (n - k % n)) % n + k) % n = p := by
  have hn : 0 < n := by omega
  have hr : k % n < n := Nat.mod_lt _ hn
  have hlt : (p + (n - k % n)) % n < n := Nat.mod_lt _ hn
  rw [add_mod_reduce _ k n hlt]
  by_cases h0 : k % n = 0
  · rw [h0, Nat.sub_zero, Nat.add_mod_right, Nat.add_zero, Nat.mod_mod, Nat.mod_eq_of_lt hp]
  · have hs : n - k % n < n := by omega
    rw [add_mod_cases p (n - k % n) n hp hs]
    by_cases h : p + (n - k % n) < n
    · simp only [h, if_true]
      have : p + (n - k % n) + k % n = p + n := by omega
      rw [this, Nat.add_mod_right, Nat.mod_eq_of_lt hp]
    · simp only [h, if_false]
      have : p + (n - k % n) - n + k % n = p := by omega
      rw [this, Nat.mod_eq_of_lt hp]

/-! ## Counted loops that write one cell per pass -/

theorem forLoop_writes (body : Int → List Int → Run (List Int)) (f : Nat → Int)
    (idx : Nat → Nat) (n bound : Nat)
    (hbody : ∀ (j : Nat) (acc : List Int), j < bound → acc.length = n →
      body (j : Int) acc = .ok (acc.set (idx j) (f (idx j))))
    (rem a : Nat) (acc : List Int) (hacc : acc.length = n) (hb : a + rem ≤ bound) :
    forLoop body rem (a : Int) acc
      = .ok (applyWrites f ((List.range' a rem).map idx) acc) := by
  induction rem generalizing a acc with
  | zero => simp [forLoop, applyWrites]
  | succ rem ih =>
    have h1 := hbody a acc (by omega) hacc
    have h2 := ih (a + 1) (acc.set (idx a) (f (idx a))) (by simpa using hacc) (by omega)
    have hc : ((a : Int) + 1) = ((a + 1 : Nat) : Int) := by push_cast; rfl
    simp only [forLoop, h1, hc, h2]
    rfl

theorem isNoop_nat (nums : List Int) (k : Nat) (hn : 0 < nums.length) :
    isNoop nums (k : Int) = .ok (decide (k % nums.length = 0)) := by
  by_cases hk : k = 0
  · subst hk; simp [isNoop]
  · have hk0 : (k : Int) ≠ 0 := by omega
    simp only [isNoop, hk0, if_false, goMod_nat k nums.length hn]
    simp only [bind, Except.bind, pure, Except.pure]
    congr 1
    have : (((k % nums.length : Nat) : Int) = 0) = (k % nums.length = 0) := by
      apply propext; constructor <;> intro h <;> omega
    simp only [this]

theorem rotR_of_mod_eq_zero (nums : List Int) (k : Nat) (h : k % nums.length = 0) :
    rotR nums k = nums := by
  simp [rotR, h, List.rotate_length]

/-- The copy loop of `rotate` fills the new slice with the rotation. -/
theorem rotate_fill (nums : List Int) (k : Nat) (hn : 0 < nums.length) :
    forLoop (fun i (acc : List Int) => do
        let j ← goMod (i + (k : Int)) nums.length
        let v ← readAt nums i
        writeAt acc j v) nums.length 0 (List.replicate nums.length 0)
      = .ok (rotR nums k) := by
  have h := forLoop_writes (fun i (acc : List Int) => do
        let j ← goMod (i + (k : Int)) nums.length
        let v ← readAt nums i
        writeAt acc j v)
      (fun p => nums.getD ((p + (nums.length - k % nums.length)) % nums.length) 0)
      (fun j => (j + k) % nums.length) nums.length nums.length
      (by
        intro j acc hj hacc
        have hc : ((j : Int) + (k : Int)) = ((j + k : Nat) : Int) := by push_cast; rfl
        have hlt : (j + k) % nums.length < acc.length := by
          rw [hacc]; exact Nat.mod_lt _ hn
        simp only [hc, goMod_nat _ _ hn, readAt_nat nums j hj]
        simp only [bind, Except.bind]
        rw [writeAt_nat acc _ _ hlt, fwd_back j k nums.length hj])
      nums.length 0 (List.replicate nums.length 0) (by simp) (by omega)
  have h0 : ((0 : Nat) : Int) = 0 := rfl
  rw [h0] at h
  rw [h]
  congr 1
  apply ext_getD
  · rw [length_applyWrites, length_rotR]; simp
  · intro p hp
    rw [length_applyWrites] at hp
    have hp2 : p < nums.length := by simpa using hp
    rw [getD_applyWrites _ _ _ _ hp, getD_rotR nums k p hp2]
    have hmem : p ∈ List.map (fun j => (j + k) % nums.length) (List.range' 0 nums.length) := by
      rw [List.mem_map]
      refine ⟨(p + (nums.length - k % nums.length)) % nums.length, ?_, back_fwd p k _ hp2⟩
      rw [List.mem_range']
      exact ⟨(p + (nums.length - k % nums.length)) % nums.length, Nat.mod_lt _ hn, by simp⟩
    rw [if_pos hmem]

/-- The second loop of `rotate` copies the new slice back. -/
theorem rotate_copy (nums newNums : List Int) (hlen : newNums.length = nums.length) :
    forLoop (fun i (acc : List Int) => do
        let v ← readAt newNums i
        writeAt acc i v) nums.length 0 nums = .ok newNums := by
  have h := forLoop_writes (fun i (acc : List Int) => do
        let v ← readAt newNums i
        writeAt acc i v)
      (fun p => newNums.getD p 0) (fun j => j) nums.length nums.length
      (by
        intro j acc hj hacc
        simp only [readAt_nat newNums j (by omega)]
        simp only [bind, Except.bind]
        rw [writeAt_nat acc _ _ (by omega)])
      nums.length 0 nums rfl (by omega)
  have h0 : ((0 : Nat) : Int) = 0 := rfl
  rw [h0] at h
  rw [h]
  congr 1
  apply ext_getD
  · rw [length_applyWrites, hlen]
  · intro p hp
    rw [length_applyWrites] at hp
    rw [getD_applyWrites _ _ _ _ hp]
    have hmem : p ∈ List.map (fun j => j) (List.range' 0 nums.length) := by
      simp [List.mem_range']; exact hp
    rw [if_pos hmem]

/-- The function `rotate` computes the reference rotation. -/
theorem rotate_eq_rotR (nums : List Int) (k : Nat) (hn : 0 < nums.length) :
    rotate nums (k : Int) = .ok (rotR nums k) := by
  unfold rotate rotateWith
  rw [isNoop_nat nums k hn]
  by_cases h : k % nums.length = 0
  · simp [h, rotR_of_mod_eq_zero nums k h, bind, Except.bind, pure, Except.pure]
  · simp only [h, decide_False, bind, Except.bind]
    have hf := rotate_fill nums k hn
    simp only [bind, Except.bind] at hf
    simp only [Bool.false_eq_true, if_false]
    rw [hf]
    have hc := rotate_copy nums (rotR nums k) (length_rotR nums k)
    simp only [bind, Except.bind] at hc
    exact hc

/-! ## `reverseSlice` and `reverse` -/

theorem reverseSliceLoop_spec (fuel : Nat) (nums : List Int) (l : Nat)
    (hfuel : nums.length ≤ 2 * (fuel + l) + 1) :
    ∃ res, reverseSliceLoop fuel nums (l : Int) ((nums.length : Int) - 1 - (l : Int)) = .ok res
      ∧ res.length = nums.length
      ∧ ∀ p, p < nums.length → res.getD p 0 =
          if l ≤ p ∧ p + l < nums.length then nums.getD (nums.length - 1 - p) 0
          else nums.getD p 0 := by
  induction fuel generalizing nums l with
  | zero =>
    have hlt : ¬ ((l : Int) < (nums.length : Int) - 1 - (l : Int)) := by omega
    refine ⟨nums, by simp [reverseSliceLoop, hlt], rfl, ?_⟩
    intro p hp
    split_ifs with h
    · have : nums.length - 1 - p = p := by omega
      rw [this]
    · rfl
  | succ fuel ih =>
    by_cases hlt : (l : Int) < (nums.length : Int) - 1 - (l : Int)
    · have hr : (nums.length : Int) - 1 - (l : Int) = ((nums.length - 1 - l : Nat) : Int) := by
        omega
      have hl1 : l < nums.length := by omega
      have hr1 : nums.length - 1 - l < nums.length := by omega
      obtain ⟨res, hres, hlen, hget⟩ := ih
        ((nums.set l (nums.getD (nums.length - 1 - l) 0)).set (nums.length - 1 - l)
          (nums.getD l 0)) (l + 1) (by simp; omega)
      refine ⟨res, ?_, by simpa using hlen, ?_⟩
      · rw [← hres]
        simp only [reverseSliceLoop, hlt, if_true]
        rw [hr, readAt_nat nums l hl1, readAt_nat nums _ hr1]
        simp only [bind, Except.bind]
        rw [writeAt_nat nums l _ hl1]
        simp only []
        rw [writeAt_nat _ _ _ (by simpa using hr1)]
        simp only [List.length_set]
        congr 1
        push_cast
        omega
      · intro p hp
        rw [hget p (by simpa using hp)]
        simp only [List.length_set, getD_set_eq]
        split_ifs <;> first | rfl | omega | (congr 1; omega)
    · refine ⟨nums, by simp [reverseSliceLoop, hlt], rfl, ?_⟩
      intro p hp
      split_ifs with h
      · have : nums.length - 1 - p = p := by omega
        rw [this]
      · rfl

/-- With fuel for half the length, `reverseSlice` returns the reversed list. -/
theorem reverseSlice_eq (fuel : Nat) (nums : List Int) (hfuel : nums.length / 2 ≤ fuel) :
    reverseSlice fuel nums = .ok nums.reverse := by
  obtain ⟨res, hres, hlen, hget⟩ := reverseSliceLoop_spec fuel nums 0 (by omega)
  have h0 : reverseSlice fuel nums = .ok res := by
    unfold reverseSlice
    simpa using hres
  rw [h0]
  congr 1
  apply ext_getD
  · simp [hlen]
  · intro p hp
    rw [hlen] at hp
    rw [hget p hp]
    simp only [Nat.zero_le, Nat.add_zero, hp, and_self, if_true]
    simp only [List.getD_eq_getElem?_getD]
    rw [List.getElem?_reverse hp]

/-- The function `reverse` computes the reference rotation. -/
theorem reverse_eq_rotR (fuel : Nat) (nums : List Int) (k : Nat) (hn : 0 < nums.length)
    (hfuel : nums.length / 2 ≤ fuel) :
    reverse fuel nums (k : Int) = .ok (rotR nums k) := by
  unfold reverse
  rw [isNoop_nat nums k hn]
  by_cases h : k % nums.length = 0
  · simp [h, rotR_of_mod_eq_zero nums k h, bind, Except.bind, pure, Except.pure]
  · have hr : k % nums.length < nums.length := Nat.mod_lt _ hn
    have hfl : (List.take (k % nums.length) nums.reverse).length / 2 ≤ fuel := by
      have : (List.take (k % nums.length) nums.reverse).length ≤ nums.length := by
        simp [List.length_take]
      have := @Nat.div_le_div_right _ _ 2 this
      omega
    have hfr : (List.drop (k % nums.length) nums.reverse).length / 2 ≤ fuel := by
      have : (List.drop (k % nums.length) nums.reverse).length ≤ nums.length := by
        simp [List.length_drop]
      have := @Nat.div_le_div_right _ _ 2 this
      omega
    have hcond : (0 : Int) ≤ ((k % nums.length : Nat) : Int)
        ∧ ((k % nums.length : Nat) : Int) ≤ (nums.reverse.length : Int) := by
      constructor
      · omega
      · simp; omega
    have hdrop : List.drop (k % nums.length)
        ((List.take (k % nums.length) nums.reverse).reverse
          ++ List.drop (k % nums.length) nums.reverse)
        = List.drop (k % nums.length) nums.reverse := by
      rw [List.drop_append_of_le_length (by simp [List.length_take]; omega)]
      rw [List.drop_of_length_le (by simp [List.length_take])]
      rfl
    have htake : List.take (k % nums.length)
        ((List.take (k % nums.length) nums.reverse).reverse
          ++ List.drop (k % nums.length) nums.reverse)
        = (List.take (k % nums.length) nums.reverse).reverse := by
      rw [List.take_append_of_le_length (by simp [List.length_take]; omega)]
      rw [List.take_of_length_le (by simp [List.length_take])]
    simp only [h, decide_False, bind, Except.bind, Bool.false_eq_true, if_false,
      goMod_nat k nums.length hn, reverseSlice_eq fuel nums hfuel, hcond, not_true,
      Int.toNat_ofNat, reverseSlice_eq fuel _ hfl, and_self, hdrop, htake,
      reverseSlice_eq fuel _ hfr, pure, Except.pure]
    congr 1
    unfold rotR
    rw [List.rotate_eq_drop_append_take (by omega)]
    rw [List.reverse_take, List.reverse_drop]
    simp only [List.reverse_reverse, List.length_reverse]

/-! ## `gcd` on natural numbers -/

theorem gcdLoop_nat (fuel a b : Nat) (h : a ≤ fuel) :
    gcdLoop fuel (a : Int) (b : Int) = .ok ((Nat.gcd a b : Nat) : Int) := by
  induction fuel generalizing a b with
  | zero =>
    have ha : a = 0 := by omega
    subst ha
    simp [gcdLoop]
  | succ fuel ih =>
    by_cases ha : a = 0
    · subst ha
      simp [gcdLoop]
    · have ha0 : (a : Int) ≠ 0 := by omega
      have hlt : b % a < a := Nat.mod_lt _ (by omega)
      simp only [gcdLoop, ha0, ne_eq, not_false_eq_true, if_true,
        goMod_nat b a (by omega), bind, Except.bind]
      rw [ih (b % a) a (by omega), ← Nat.gcd_rec]

/-! ## The orbits of `i ↦ (i + r) % n` -/

theorem orbit_lt (n r i t : Nat) (hn : 0 < n) : orbit n r i t < n := Nat.mod_lt _ hn

theorem orbit_zero (n r i : Nat) (hi : i < n) : orbit n r i 0 = i := by
  simp [orbit, Nat.mod_eq_of_lt hi]

theorem orbit_succ (n r i t : Nat) : (orbit n r i t + r) % n = orbit n r i (t + 1) := by
  unfold orbit
  rw [Nat.add_mod, Nat.mod_mod, ← Nat.add_mod]
  congr 1
  ring

/-- A multiple `t * r` is divisible by `n` exactly when `t` is a multiple of `n / gcd r n`. -/
theorem dvd_mul_iff_period (n r t : Nat) (hn : 0 < n) :
    n ∣ t * r ↔ n / Nat.gcd r n ∣ t := by
  have hg : 0 < Nat.gcd r n := Nat.gcd_pos_of_pos_right r hn
  have hcop : Nat.Coprime (n / Nat.gcd r n) (r / Nat.gcd r n) :=
    (Nat.coprime_div_gcd_div_gcd hg).symm
  have hn2 : n = Nat.gcd r n * (n / Nat.gcd r n) :=
    (Nat.mul_div_cancel' (Nat.gcd_dvd_right r n)).symm
  have hr2 : r = Nat.gcd r n * (r / Nat.gcd r n) :=
    (Nat.mul_div_cancel' (Nat.gcd_dvd_left r n)).symm
  have h1 : n ∣ t * r ↔ Nat.gcd r n * (n / Nat.gcd r n)
      ∣ Nat.gcd r n * (t * (r / Nat.gcd r n)) := by
    have : t * r = Nat.gcd r n * (t * (r / Nat.gcd r n)) := by
      conv_lhs => rw [hr2]
      ring
    rw [this, ← hn2]
  rw [h1, Nat.mul_dvd_mul_iff_left hg, hcop.dvd_mul_right]

theorem orbit_eq_iff (n r i s t : Nat) (hn : 0 < n) (hst : s ≤ t) :
    orbit n r i s = orbit n r i t ↔ n / Nat.gcd r n ∣ t - s := by
  rw [← dvd_mul_iff_period n r (t - s) hn]
  have hle : i + s * r ≤ i + t * r := by
    have := Nat.mul_le_mul_right r hst
    omega
  have hsub : i + t * r - (i + s * r) = (t - s) * r := by
    rw [Nat.sub_mul]; omega
  unfold orbit
  rw [← hsub]
  exact Nat.modEq_iff_dvd' hle

theorem orbit_period (n r i : Nat) (hn : 0 < n) (hi : i < n) :
    orbit n r i (n / Nat.gcd r n) = i := by
  have h := (orbit_eq_iff n r i 0 (n / Nat.gcd r n) hn (Nat.zero_le _)).2 (by simp)
  rw [← h, orbit_zero n r i hi]

theorem period_pos (n r : Nat) (hn : 0 < n) : 0 < n / Nat.gcd r n :=
  Nat.div_pos (Nat.le_of_dvd hn (Nat.gcd_dvd_right r n)) (Nat.gcd_pos_of_pos_right r hn)

theorem orbit_ne (n r i s t : Nat) (hn : 0 < n) (hst : s < t)
    (hlt : t - s < n / Nat.gcd r n) : orbit n r i s ≠ orbit n r i t := by
  intro h
  have hd := (orbit_eq_iff n r i s t hn (Nat.le_of_lt hst)).1 h
  have := Nat.le_of_dvd (by omega) hd
  omega

theorem orbit_mod_gcd (n r i t : Nat) :
    orbit n r i t % Nat.gcd r n = i % Nat.gcd r n := by
  unfold orbit
  rw [Nat.mod_mod_of_dvd _ (Nat.gcd_dvd_right r n)]
  obtain ⟨q, hq⟩ := Nat.gcd_dvd_left r n
  have : i + t * r = i + Nat.gcd r n * (t * q) := by
    conv_lhs => rw [hq]
    ring
  rw [this, Nat.add_mul_mod_self_left]

theorem mem_cycleOf (n r i p : Nat) :
    p ∈ cycleOf n r i ↔ ∃ t, 1 ≤ t ∧ t ≤ n / Nat.gcd r n ∧ orbit n r i t = p := by
  unfold cycleOf
  rw [List.mem_map]
  constructor
  · rintro ⟨t, ht, rfl⟩
    rw [List.mem_range'_1] at ht
    exact ⟨t, ht.1, by omega, rfl⟩
  · rintro ⟨t, h1, h2, rfl⟩
    exact ⟨t, by rw [List.mem_range'_1]; omega, rfl⟩

theorem cycleOf_mod_gcd (n r i p : Nat) (hp : p ∈ cycleOf n r i) :
    p % Nat.gcd r n = i % Nat.gcd r n := by
  obtain ⟨t, _, _, rfl⟩ := (mem_cycleOf n r i p).1 hp
  exact orbit_mod_gcd n r i t

theorem length_cycleOf (n r i : Nat) : (cycleOf n r i).length = n / Nat.gcd r n := by
  simp [cycleOf]

theorem nodup_cycleOf (n r i : Nat) (hn : 0 < n) : (cycleOf n r i).Nodup := by
  unfold cycleOf
  apply List.Nodup.map_on _ (List.nodup_range' 1 _)
  intro s hs t ht hst
  rw [List.mem_range'_1] at hs ht
  by_contra hne
  rcases Nat.lt_or_gt_of_ne hne with h | h
  · exact orbit_ne n r i s t hn h (by omega) hst
  · exact orbit_ne n r i t s hn h (by omega) hst.symm

/-! ## The inner loop and one pass of `ringReplace` -/

/-- The value that the rotation by `r` puts at index `p`. -/
theorem source_orbit (n r i t : Nat) (hn : 0 < n) (hr : r < n) :
    (orbit n r i (t + 1) + (n - r)) % n = orbit n r i t := by
  have h := fwd_back (orbit n r i t) r n (orbit_lt n r i t hn)
  rw [orbit_succ, Nat.mod_eq_of_lt hr] at h
  exact h

theorem ringInner_spec (orig : List Int) (r i : Nat) (hr : r < orig.length)
    (d : Nat) (fuel j : Nat) (nums : List Int) (log : List Int)
    (hlen : nums.length = orig.length) (hfuel : d ≤ fuel)
    (hj : j + 1 + d = orig.length / Nat.gcd r orig.length) (hi : i < orig.length)
    (H : ∀ t, j < t → t ≤ orig.length / Nat.gcd r orig.length →
      nums.getD (orbit orig.length r i t) 0 = orig.getD (orbit orig.length r i t) 0) :
    ringInner (orig.length : Int) (r : Int) (i : Int) fuel
        ⟨nums, (orbit orig.length r i (j + 1) : Nat), orig.getD (orbit orig.length r i j) 0,
          orig.getD (orbit orig.length r i (j + 1)) 0, log⟩
      = .ok ⟨applyWrites (fun p => orig.getD ((p + (orig.length - r)) % orig.length) 0)
              ((List.range' (j + 1) d).map (orbit orig.length r i)) nums,
            (i : Int), orig.getD (orbit orig.length r i (j + d)) 0,
            orig.getD (orbit orig.length r i (j + 1 + d)) 0,
            log ++ ((List.range' (j + 1) d).map (orbit orig.length r i)).map Int.ofNat⟩ := by
  have hn : 0 < orig.length := by omega
  induction d generalizing fuel j nums log with
  | zero =>
    have hcur : orbit orig.length r i (j + 1) = i := by
      have := orbit_period orig.length r i hn hi
      rw [← hj] at this
      simpa using this
    have hstop : ¬ ((orbit orig.length r i (j + 1) : Nat) : Int) ≠ (i : Int) := by
      rw [hcur]; simp
    cases fuel <;> simp [ringInner, hstop, applyWrites, hcur]
  | succ d ih =>
    obtain ⟨fuel, rfl⟩ : ∃ f, fuel = f + 1 := ⟨fuel - 1, by omega⟩
    have hne : orbit orig.length r i (j + 1) ≠ i := by
      have h := orbit_ne orig.length r i 0 (j + 1) hn (by omega) (by omega)
      rw [orbit_zero orig.length r i hi] at h
      exact fun e => h e.symm
    have hgo : ((orbit orig.length r i (j + 1) : Nat) : Int) ≠ (i : Int) := by
      intro e; exact hne (by exact_mod_cast e)
    have hlt1 : orbit orig.length r i (j + 1) < nums.length := by
      rw [hlen]; exact orbit_lt _ _ _ _ hn
    have hlt2 : orbit orig.length r i (j + 1 + 1) <
        (nums.set (orbit orig.length r i (j + 1)) (orig.getD (orbit orig.length r i j) 0)).length := by
      rw [List.length_set, hlen]; exact orbit_lt _ _ _ _ hn
    have hc : ((orbit orig.length r i (j + 1) : Nat) : Int) + (r : Int)
        = ((orbit orig.length r i (j + 1) + r : Nat) : Int) := by push_cast; rfl
    have hne2 : orbit orig.length r i (j + 1) ≠ orbit orig.length r i (j + 1 + 1) :=
      orbit_ne orig.length r i (j + 1) (j + 1 + 1) hn (by omega) (by omega)
    have hread : (nums.set (orbit orig.length r i (j + 1))
          (orig.getD (orbit orig.length r i j) 0)).getD (orbit orig.length r i (j + 1 + 1)) 0
        = orig.getD (orbit orig.length r i (j + 1 + 1)) 0 := by
      rw [getD_set_eq]
      simp only [hne2, false_and, if_false]
      exact H (j + 1 + 1) (by omega) (by omega)
    have hih := ih fuel (j + 1)
      (nums.set (orbit orig.length r i (j + 1)) (orig.getD (orbit orig.length r i j) 0))
      (log ++ [((orbit orig.length r i (j + 1) : Nat) : Int)])
      (by simpa using hlen) (by omega) (by omega)
      (by
        intro t ht1 ht2
        rw [getD_set_eq]
        have : orbit orig.length r i (j + 1) ≠ orbit orig.length r i t :=
          orbit_ne orig.length r i (j + 1) t hn ht1 (by omega)
        simp only [this, false_and, if_false]
        exact H t (by omega) ht2)
    simp only [ringInner, hgo, ne_eq, not_false_eq_true, if_true]
    rw [writeAt_nat nums _ _ hlt1]
    simp only [bind, Except.bind]
    rw [hc, goMod_nat _ _ hn, orbit_succ]
    simp only []
    rw [readAt_nat _ _ hlt2, hread]
    simp only []
    rw [hih]
    have hsrc : orig.getD ((orbit orig.length r i (j + 1) + (orig.length - r)) % orig.length) 0
        = orig.getD (orbit orig.length r i j) 0 := by
      rw [source_orbit orig.length r i j hn hr]
    have e1 : j + 1 + d = j + (d + 1) := by omega
    have e2 : j + 1 + 1 + d = j + 1 + (d + 1) := by omega
    rw [List.range'_succ]
    simp only [List.map_cons, applyWrites, List.foldl_cons, hsrc, e1, e2,
      List.append_assoc, List.singleton_append, Int.ofNat_eq_coe]

/-- One pass of the outer loop writes the cycle of its start index. -/
theorem ringPass_spec (orig : List Int) (r i : Nat) (hr : r < orig.length)
    (fuel : Nat) (nums : List Int) (log : List (List Int))
    (hlen : nums.length = orig.length)
    (hfuel : orig.length / Nat.gcd r orig.length ≤ fuel + 1) (hi : i < orig.length)
    (H : ∀ p, p ∈ cycleOf orig.length r i → nums.getD p 0 = orig.getD p 0) :
    ringPass fuel (orig.length : Int) (r : Int) (i : Int) (nums, log)
      = .ok (applyWrites (fun p => orig.getD ((p + (orig.length - r)) % orig.length) 0)
              (cycleOf orig.length r i) nums,
            log ++ [(cycleOf orig.length r i).map Int.ofNat]) := by
  have hn : 0 < orig.length := by omega
  have hm := period_pos orig.length r hn
  have H2 : ∀ t, 0 < t → t ≤ orig.length / Nat.gcd r orig.length →
      nums.getD (orbit orig.length r i t) 0 = orig.getD (orbit orig.length r i t) 0 := by
    intro t h1 h2
    exact H _ ((mem_cycleOf _ _ _ _).2 ⟨t, h1, h2, rfl⟩)
  have hper := orbit_period orig.length r i hn hi
  have hz := orbit_zero orig.length r i hi
  have hc : ((i : Nat) : Int) + (r : Int) = ((orbit orig.length r i 0 + r : Nat) : Int) := by
    rw [hz]; push_cast; rfl
  have hpre : nums.getD i 0 = orig.getD (orbit orig.length r i 0) 0 := by
    have := H2 _ hm (Nat.le_refl _)
    rw [hper] at this
    rw [hz]; exact this
  have hcv : nums.getD (orbit orig.length r i (0 + 1)) 0
      = orig.getD (orbit orig.length r i (0 + 1)) 0 := H2 1 (by omega) (by omega)
  have hin := ringInner_spec orig r i hr (orig.length / Nat.gcd r orig.length - 1) fuel 0
    nums [] hlen (by omega) (by omega) hi H2
  unfold ringPass
  simp only [bind, Except.bind]
  rw [hc, goMod_nat _ _ hn, orbit_succ]
  simp only []
  rw [readAt_nat nums i (by omega), readAt_nat nums _ (by rw [hlen]; exact orbit_lt _ _ _ _ hn)]
  simp only []
  rw [hpre, hcv, hin]
  simp only []
  rw [writeAt_nat _ i _ (by rw [length_applyWrites, hlen]; exact hi)]
  simp only [pure, Except.pure]
  have hsplit : cycleOf orig.length r i
      = (List.range' (0 + 1) (orig.length / Nat.gcd r orig.length - 1)).map (orbit orig.length r i)
        ++ [i] := by
    unfold cycleOf
    have e : orig.length / Nat.gcd r orig.length
        = (orig.length / Nat.gcd r orig.length - 1) + 1 := by omega
    conv_lhs => rw [e, List.range'_concat]
    rw [List.map_append]
    congr 1
    simp only [List.map_cons, List.map_nil, Nat.one_mul]
    have e2 : 1 + (orig.length / Nat.gcd r orig.length - 1)
        = orig.length / Nat.gcd r orig.length := by omega
    rw [e2, hper]
  have hsrc : orig.getD (orbit orig.length r i
        (0 + (orig.length / Nat.gcd r orig.length - 1))) 0
      = orig.getD ((i + (orig.length - r)) % orig.length) 0 := by
    have h := source_orbit orig.length r i (orig.length / Nat.gcd r orig.length - 1) hn hr
    have e : orig.length / Nat.gcd r orig.length - 1 + 1
        = orig.length / Nat.gcd r orig.length := by omega
    rw [e, hper] at h
    rw [h, Nat.zero_add]
  rw [hsplit, applyWrites_append, hsrc]
  simp [applyWrites]

/-! ## The outer loop of `ringReplace` -/

theorem ringOuter_spec (orig : List Int) (r : Nat) (hr : r < orig.length) (fuel : Nat)
    (hfuel : orig.length / Nat.gcd r orig.length ≤ fuel + 1)
    (rem a : Nat) (nums : List Int) (log : List (List Int))
    (hlen : nums.length = orig.length) (ha : a + rem ≤ Nat.gcd r orig.length)
    (H : ∀ p, p < orig.length → a ≤ p % Nat.gcd r orig.length →
      nums.getD p 0 = orig.getD p 0) :
    forLoop (ringPass fuel (orig.length : Int) (r : Int)) rem (a : Int) (nums, log)
      = .ok (applyWrites (fun p => orig.getD ((p + (orig.length - r)) % orig.length) 0)
              ((List.range' a rem).flatMap (cycleOf orig.length r)) nums,
            log ++ (List.range' a rem).map (fun i => (cycleOf orig.length r i).map Int.ofNat)) := by
  have hn : 0 < orig.length := by omega
  have hgle : Nat.gcd r orig.length ≤ orig.length :=
    Nat.le_of_dvd hn (Nat.gcd_dvd_right r orig.length)
  induction rem generalizing a nums log with
  | zero => simp [forLoop, applyWrites]
  | succ rem ih =>
    have hag : a < Nat.gcd r orig.length := by omega
    have hmem : ∀ p, p ∈ cycleOf orig.length r a →
        p < orig.length ∧ p % Nat.gcd r orig.length = a := by
      intro p hp
      constructor
      · obtain ⟨t, _, _, rfl⟩ := (mem_cycleOf _ _ _ _).1 hp
        exact orbit_lt _ _ _ _ hn
      · rw [cycleOf_mod_gcd _ _ _ _ hp, Nat.mod_eq_of_lt hag]
    have hpass := ringPass_spec orig r a hr fuel nums log hlen hfuel (by omega)
      (by
        intro p hp
        exact H p (hmem p hp).1 (by rw [(hmem p hp).2]))
    have hih := ih (a + 1)
      (applyWrites (fun p => orig.getD ((p + (orig.length - r)) % orig.length) 0)
        (cycleOf orig.length r a) nums)
      (log ++ [(cycleOf orig.length r a).map Int.ofNat])
      (by rw [length_applyWrites, hlen]) (by omega)
      (by
        intro p hp hres
        rw [getD_applyWrites _ _ _ _ (by rw [hlen]; exact hp)]
        have hnot : p ∉ cycleOf orig.length r a := by
          intro hp2
          have := (hmem p hp2).2
          omega
        rw [if_neg hnot]
        exact H p hp (by omega))
    have hc : ((a : Int) + 1) = ((a + 1 : Nat) : Int) := by push_cast; rfl
    simp only [forLoop, hpass, hc, hih]
    rw [List.range'_succ]
    simp only [List.flatMap_cons, applyWrites_append, List.map_cons, List.append_assoc,
      List.singleton_append]

/-! ## Every index belongs to exactly one cycle -/

theorem length_allCycles (n r a rem : Nat) :
    ((List.range' a rem).flatMap (cycleOf n r)).length = rem * (n / Nat.gcd r n) := by
  induction rem generalizing a with
  | zero => simp
  | succ rem ih =>
    rw [List.range'_succ, List.flatMap_cons, List.length_append, ih, length_cycleOf]
    ring

theorem nodup_allCycles (n r : Nat) (hn : 0 < n) :
    ((List.range' 0 (Nat.gcd r n)).flatMap (cycleOf n r)).Nodup := by
  rw [List.nodup_flatMap]
  refine ⟨fun i _ => nodup_cycleOf n r i hn, ?_⟩
  have hpw : List.Pairwise (fun a b : Nat => a ≠ b) (List.range' 0 (Nat.gcd r n)) :=
    List.nodup_range' 0 _
  refine List.Pairwise.imp_of_mem ?_ hpw
  intro a b ha hb hab
  rw [List.mem_range'_1] at ha hb
  intro p hpa hpb
  have h1 := cycleOf_mod_gcd n r a p hpa
  have h2 := cycleOf_mod_gcd n r b p hpb
  rw [Nat.mod_eq_of_lt (by omega : a < Nat.gcd r n)] at h1
  rw [Nat.mod_eq_of_lt (by omega : b < Nat.gcd r n)] at h2
  exact hab (h1.symm.trans h2)

theorem covers_of_nodup (l : List Nat) (n : Nat) (hnd : l.Nodup) (hlt : ∀ x ∈ l, x < n)
    (hlen : l.length = n) (p : Nat) (hp : p < n) : p ∈ l := by
  have hsub : l.toFinset ⊆ Finset.range n := by
    intro x hx
    rw [List.mem_toFinset] at hx
    exact Finset.mem_range.2 (hlt x hx)
  have hcard : (Finset.range n).card ≤ l.toFinset.card := by
    rw [List.toFinset_card_of_nodup hnd, Finset.card_range, hlen]
  have := Finset.eq_of_subset_of_card_le hsub hcard
  have hp2 : p ∈ l.toFinset := by rw [this]; exact Finset.mem_range.2 hp
  exact List.mem_toFinset.1 hp2

theorem mem_allCycles (n r p : Nat) (hn : 0 < n) (hp : p < n) :
    p ∈ (List.range' 0 (Nat.gcd r n)).flatMap (cycleOf n r) := by
  apply covers_of_nodup _ n (nodup_allCycles n r hn) _ _ p hp
  · intro x hx
    rw [List.mem_flatMap] at hx
    obtain ⟨i, _, hxi⟩ := hx
    obtain ⟨t, _, _, rfl⟩ := (mem_cycleOf _ _ _ _).1 hxi
    exact orbit_lt _ _ _ _ hn
  · rw [length_allCycles, Nat.mul_div_cancel' (Nat.gcd_dvd_right r n)]

/-- The function `ringReplace`, with its record of writes, on a non-empty slice and a
non-negative `k`, given fuel for the loop of `gcd` and for the inner loop. -/
theorem ringReplaceTr_eq (fuel : Nat) (nums : List Int) (k : Nat) (hn : 0 < nums.length)
    (hf1 : k % nums.length ≤ fuel)
    (hf2 : nums.length / Nat.gcd (k % nums.length) nums.length ≤ fuel + 1) :
    ringReplaceTr fuel nums (k : Int)
      = .ok (rotR nums k, expectedRecord nums.length (k % nums.length)) := by
  have hr : k % nums.length < nums.length := Nat.mod_lt _ hn
  have hout := ringOuter_spec nums (k % nums.length) hr fuel hf2
    (Nat.gcd (k % nums.length) nums.length) 0 nums [] rfl (by omega) (fun _ _ _ => rfl)
  have h0 : ((0 : Nat) : Int) = 0 := rfl
  rw [h0] at hout
  unfold ringReplaceTr gcd
  simp only [bind, Except.bind, goMod_nat k nums.length hn,
    gcdLoop_nat fuel (k % nums.length) nums.length hf1, Int.toNat_ofNat, hout]
  congr 1
  rw [Prod.mk.injEq]
  refine ⟨?_, by simp [expectedRecord]⟩
  apply ext_getD
  · rw [length_applyWrites, length_rotR]
  · intro p hp
    rw [length_applyWrites] at hp
    rw [getD_applyWrites _ _ _ _ hp, if_pos (mem_allCycles _ _ p hn hp), getD_rotR nums k p hp]

theorem fuel_enough (fuel n k : Nat) (hn : 0 < n) (hfuel : n ≤ fuel) :
    k % n ≤ fuel ∧ n / Nat.gcd (k % n) n ≤ fuel + 1 := by
  have h1 : k % n < n := Nat.mod_lt _ hn
  have h2 : n / Nat.gcd (k % n) n ≤ n := Nat.div_le_self _ _
  omega

/-- The function `ringReplace` computes the reference rotation. -/
theorem ringReplace_eq_rotR (fuel : Nat) (nums : List Int) (k : Nat) (hn : 0 < nums.length)
    (hfuel : nums.length ≤ fuel) :
    ringReplace fuel nums (k : Int) = .ok (rotR nums k) := by
  unfold ringReplace
  rw [ringReplaceTr_eq fuel nums k hn (fuel_enough fuel _ k hn hfuel).1
    (fuel_enough fuel _ k hn hfuel).2]
  rfl

/-! ## Properties of the reference rotation -/

theorem length_pos_of_ne_nil {nums : List Int} (h : nums ≠ []) : 0 < nums.length :=
  List.length_pos.2 h

theorem getElem?_rotR (nums : List Int) (k i : Nat) (hi : i < nums.length) :
    (rotR nums k)[(i + k) % nums.length]? = nums[i]? := by
  have hn : 0 < nums.length := by omega
  have hp : (i + k) % nums.length < nums.length := Nat.mod_lt _ hn
  have h := getD_rotR nums k _ hp
  rw [fwd_back i k nums.length hi] at h
  have hp2 : (i + k) % nums.length < (rotR nums k).length := by rw [length_rotR]; exact hp
  simp only [List.getD_eq_getElem?_getD, List.getElem?_eq_getElem hp2,
    List.getElem?_eq_getElem hi, Option.getD_some] at h
  rw [List.getElem?_eq_getElem hp2, List.getElem?_eq_getElem hi, h]

theorem toNat_index (i k n : Nat) :
    (((i : Int) + (k : Int)) % (n : Int)).toNat = (i + k) % n := by
  have : ((i : Int) + (k : Int)) % (n : Int) = (((i + k) % n : Nat) : Int) := by
    push_cast; rfl
  rw [this, Int.toNat_ofNat]

theorem rotR_eq_of_mod_eq (nums : List Int) (a b : Nat)
    (h : a % nums.length = b % nums.length) : rotR nums a = rotR nums b := by
  unfold rotR
  rw [h]

/-- Rotating by `a` and then by `b` is rotating by `a + b`. -/
theorem rotR_rotR (nums : List Int) (a b : Nat) :
    rotR (rotR nums a) b = rotR nums (a + b) := by
  by_cases hn : nums.length = 0
  · have : nums = [] := List.length_eq_zero.1 hn
    subst this
    simp [rotR]
  · have hpos : 0 < nums.length := Nat.pos_of_ne_zero hn
    have ha : a % nums.length < nums.length := Nat.mod_lt _ hpos
    have hb : b % nums.length < nums.length := Nat.mod_lt _ hpos
    unfold rotR
    rw [List.length_rotate, List.rotate_rotate, ← List.rotate_mod]
    conv_rhs => rw [← List.rotate_mod]
    congr 1
    rw [Nat.add_mod a b, add_mod_cases _ _ _ ha hb]
    by_cases h : a % nums.length + b % nums.length < nums.length
    · simp only [h, if_true]
      have : nums.length - a % nums.length + (nums.length - b % nums.length)
          = nums.length - (a % nums.length + b % nums.length) + nums.length := by omega
      rw [this, Nat.add_mod_right]
    · simp only [h, if_false]
      congr 1
      omega

theorem rotR_pointwise (nums : List Int) (k : Nat) :
    (rotR nums k).length = nums.length ∧
      ∀ i, i < nums.length →
        (rotR nums k)[(((i : Int) + (k : Int)) % (nums.length : Int)).toNat]? = nums[i]? := by
  refine ⟨length_rotR nums k, ?_⟩
  intro i hi
  rw [toNat_index, getElem?_rotR nums k i hi]

/-! ## The claims -/

/-- C1: `ringReplace` is a right rotation by `k mod n`. For every non-empty `nums` of
length `n` and every `k >= 0`, given fuel for `n` loop passes, `ringReplace(nums, k)`
completes with a result of length `n` in which `result[(i + k) mod n] = nums[i]` for every
`i` in `[0, n)`; and `[-1,-100,3,99]` with `k = 2` becomes `[3,99,-1,-100]`. -/
theorem ringReplace_right_rotation (fuel : Nat) (nums : List Int) (k : Int)
    (hne : nums ≠ []) (hk : 0 ≤ k) (hfuel : nums.length ≤ fuel) :
    (∃ res, ringReplace fuel nums k = .ok res ∧ res.length = nums.length ∧
      ∀ i, i < nums.length →
        res[(((i : Int) + k) % (nums.length : Int)).toNat]? = nums[i]?)
    ∧ ringReplace 4 [-1, -100, 3, 99] 2 = .ok [3, 99, -1, -100] := by
  obtain ⟨k, rfl⟩ := Int.eq_ofNat_of_zero_le hk
  refine ⟨⟨rotR nums k, ?_, rotR_pointwise nums k⟩, by decide⟩
  exact ringReplace_eq_rotR fuel nums k (length_pos_of_ne_nil hne) hfuel

/-- Witness of C1 at `nums = [7, 8, 9]`, `k = 4`, fuel `3`. -/
theorem ringReplace_right_rotation_witness :
    ([7, 8, 9] : List Int) ≠ [] ∧ (0 : Int) ≤ 4 ∧ ([7, 8, 9] : List Int).length ≤ 3 ∧
    ((∃ res, ringReplace 3 [7, 8, 9] 4 = .ok res ∧ res.length = ([7, 8, 9] : List Int).length ∧
      ∀ i, i < ([7, 8, 9] : List Int).length →
        res[(((i : Int) + 4) % (([7, 8, 9] : List Int).length : Int)).toNat]?
          = ([7, 8, 9] : List Int)[i]?)
    ∧ ringReplace 4 [-1, -100, 3, 99] 2 = .ok [3, 99, -1, -100]) :=
  ⟨by decide, by decide, by decide,
    ringReplace_right_rotation 3 [7, 8, 9] 4 (by decide) (by decide) (by decide)⟩

/-- C2 fails as stated on the empty sequence: with `k = 0`, `rotate` and `reverse` return
at their first line, while `ringReplace` evaluates `k %= 0` and faults; the three outcomes
are not the same. -/
theorem variants_disagree_on_empty :
    rotate [] 0 = .ok [] ∧ reverse 8 [] 0 = .ok []
      ∧ ringReplace 8 [] 0 = .error .divideByZero := by
  decide

/-- C3: `reverse` (triple reversal) is a right rotation by `k mod n`. For every non-empty
`nums` of length `n` and every `k >= 0`, given fuel for `n / 2` swaps in each call of
`reverseSlice`, `reverse(nums, k)` completes with a result of length `n` in which
`result[(i + k) mod n] = nums[i]` for every `i` in `[0, n)`; and `[1,2,3,4,5,6,7]` with
`k = 3` becomes `[5,6,7,1,2,3,4]`. -/
theorem reverse_right_rotation (fuel : Nat) (nums : List Int) (k : Int)
    (hne : nums ≠ []) (hk : 0 ≤ k) (hfuel : nums.length / 2 ≤ fuel) :
    (∃ res, reverse fuel nums k = .ok res ∧ res.length = nums.length ∧
      ∀ i, i < nums.length →
        res[(((i : Int) + k) % (nums.length : Int)).toNat]? = nums[i]?)
    ∧ reverse 3 [1, 2, 3, 4, 5, 6, 7] 3 = .ok [5, 6, 7, 1, 2, 3, 4] := by
  obtain ⟨k, rfl⟩ := Int.eq_ofNat_of_zero_le hk
  refine ⟨⟨rotR nums k, ?_, rotR_pointwise nums k⟩, by decide⟩
  exact reverse_eq_rotR fuel nums k (length_pos_of_ne_nil hne) hfuel

/-- Witness of C3 at `nums = [4, 5, 6, 7]`, `k = 9`, fuel `2`. -/
theorem reverse_right_rotation_witness :
    ([4, 5, 6, 7] : List Int) ≠ [] ∧ (0 : Int) ≤ 9 ∧ ([4, 5, 6, 7] : List Int).length / 2 ≤ 2 ∧
    ((∃ res, reverse 2 [4, 5, 6, 7] 9 = .ok res ∧ res.length = ([4, 5, 6, 7] : List Int).length ∧
      ∀ i, i < ([4, 5, 6, 7] : List Int).length →
        res[(((i : Int) + 9) % (([4, 5, 6, 7] : List Int).length : Int)).toNat]?
          = ([4, 5, 6, 7] : List Int)[i]?)
    ∧ reverse 3 [1, 2, 3, 4, 5, 6, 7] 3 = .ok [5, 6, 7, 1, 2, 3, 4]) :=
  ⟨by decide, by decide, by decide,
    reverse_right_rotation 2 [4, 5, 6, 7] 9 (by decide) (by decide) (by decide)⟩

/-- C4: `rotate` (auxiliary copy) is a right rotation by `k mod n` over mathematical
integers. For every non-empty `nums` of length `n` and every `k >= 0`, `rotate(nums, k)`
completes with a result of length `n` in which `result[(i + k) mod n] = nums[i]` for every
`i` in `[0, n)`, although `k` is not reduced modulo `n` before the copy loop. -/
theorem rotate_right_rotation (nums : List Int) (k : Int)
    (hne : nums ≠ []) (hk : 0 ≤ k) :
    ∃ res, rotate nums k = .ok res ∧ res.length = nums.length ∧
      ∀ i, i < nums.length →
        res[(((i : Int) + k) % (nums.length : Int)).toNat]? = nums[i]? := by
  obtain ⟨k, rfl⟩ := Int.eq_ofNat_of_zero_le hk
  exact ⟨rotR nums k, rotate_eq_rotR nums k (length_pos_of_ne_nil hne), rotR_pointwise nums k⟩

/-- Witness of C4 at `nums = [1, 2, 3]`, `k = 100`. -/
theorem rotate_right_rotation_witness :
    ([1, 2, 3] : List Int) ≠ [] ∧ (0 : Int) ≤ 100 ∧
    ∃ res, rotate [1, 2, 3] 100 = .ok res ∧ res.length = ([1, 2, 3] : List Int).length ∧
      ∀ i, i < ([1, 2, 3] : List Int).length →
        res[(((i : Int) + 100) % (([1, 2, 3] : List Int).length : Int)).toNat]?
          = ([1, 2, 3] : List Int)[i]? :=
  ⟨by decide, by decide, rotate_right_rotation [1, 2, 3] 100 (by decide) (by decide)⟩

theorem back_amount (n a : Nat) (hn : 0 < n) :
    ∃ b : Nat, ((n : Int) - (a : Int)) % (n : Int) = (b : Int) ∧ (a + b) % n = 0 := by
  have hn0 : (n : Int) ≠ 0 := by omega
  have hnn : 0 ≤ ((n : Int) - (a : Int)) % (n : Int) := Int.emod_nonneg _ hn0
  obtain ⟨b, hb⟩ := Int.eq_ofNat_of_zero_le hnn
  refine ⟨b, hb, ?_⟩
  have hdvd : (n : Int) ∣ ((a + b : Nat) : Int) := by
    have h1 : ((a + b : Nat) : Int)
        = (n : Int) * (1 - ((n : Int) - (a : Int)) / (n : Int)) := by
      have := Int.emod_def ((n : Int) - (a : Int)) (n : Int)
      push_cast
      rw [← hb, this]
      ring
    rw [h1]
    exact Dvd.intro _ rfl
  exact Nat.mod_eq_zero_of_dvd (Int.natCast_dvd_natCast.1 hdvd)

theorem expectedRecord_zero (n : Nat) (hn : 0 < n) :
    expectedRecord n 0 = (List.range n).map (fun i : Nat => [(i : Int)]) := by
  unfold expectedRecord
  rw [Nat.gcd_zero_left, List.range_eq_range']
  apply List.map_congr_left
  intro i hi
  rw [List.mem_range'_1] at hi
  have hi2 : i < n := by omega
  simp only [cycleOf, orbit, Nat.gcd_zero_left, Nat.div_self hn, List.range'_one,
    List.map_cons, List.map_nil, Nat.mul_zero, Nat.add_zero, Nat.mod_eq_of_lt hi2,
    Int.ofNat_eq_coe]

/-- C6: no-op on multiples of the length. For every non-empty `S` of length `n` and every
`k >= 0` with `k % n == 0`, and for every amount of fuel (none is used): the first-line
test of `rotate` and `reverse` is true, so both return `S` at once; in `ringReplace`,
`gcd(0, n)` returns `n`, the outer loop makes `n` passes, pass `i` writes the single index
`i` (a one-element cycle), and `S` is returned unchanged. -/
theorem noop_on_multiples (fuel : Nat) (nums : List Int) (k : Int)
    (hne : nums ≠ []) (hk : 0 ≤ k) (hmod : Int.tmod k (nums.length : Int) = 0) :
    isNoop nums k = .ok true
    ∧ rotate nums k = .ok nums
    ∧ reverse fuel nums k = .ok nums
    ∧ gcd fuel (Int.tmod k (nums.length : Int)) (nums.length : Int) = .ok (nums.length : Int)
    ∧ ringReplaceTr fuel nums k = .ok (nums, (List.range nums.length).map (fun i : Nat => [(i : Int)]))
    ∧ ringReplace fuel nums k = .ok nums := by
  obtain ⟨a, rfl⟩ := Int.eq_ofNat_of_zero_le hk
  have hn := length_pos_of_ne_nil hne
  have ha : a % nums.length = 0 := by
    rw [← Int.ofNat_tmod] at hmod
    exact_mod_cast hmod
  have hnoop : isNoop nums (a : Int) = .ok true := by
    rw [isNoop_nat nums a hn]; simp [ha]
  have htr : ringReplaceTr fuel nums (a : Int)
      = .ok (nums, (List.range nums.length).map (fun i : Nat => [(i : Int)])) := by
    rw [ringReplaceTr_eq fuel nums a hn (by omega)
      (by rw [ha, Nat.gcd_zero_left, Nat.div_self hn]; omega)]
    rw [rotR_of_mod_eq_zero nums a ha, ha, expectedRecord_zero _ hn]
  refine ⟨hnoop, ?_, ?_, ?_, htr, ?_⟩
  · rw [rotate_eq_rotR nums a hn, rotR_of_mod_eq_zero nums a ha]
  · unfold reverse
    rw [hnoop]
    rfl
  · rw [hmod]
    have := gcdLoop_nat fuel 0 nums.length (Nat.zero_le _)
    rw [Nat.gcd_zero_left] at this
    exact this
  · unfold ringReplace
    rw [htr]
    rfl

/-- Witness of C6 at `S = [1, 2, 3, 4, 5, 6]`, `k = 6`, with no fuel. -/
theorem noop_on_multiples_witness :
    ([1, 2, 3, 4, 5, 6] : List Int) ≠ [] ∧ (0 : Int) ≤ 6
    ∧ Int.tmod 6 (([1, 2, 3, 4, 5, 6] : List Int).length : Int) = 0
    ∧ (isNoop [1, 2, 3, 4, 5, 6] 6 = .ok true
      ∧ rotate [1, 2, 3, 4, 5, 6] 6 = .ok [1, 2, 3, 4, 5, 6]
      ∧ reverse 0 [1, 2, 3, 4, 5, 6] 6 = .ok [1, 2, 3, 4, 5, 6]
      ∧ gcd 0 (Int.tmod 6 (([1, 2, 3, 4, 5, 6] : List Int).length : Int))
          (([1, 2, 3, 4, 5, 6] : List Int).length : Int)
          = .ok (([1, 2, 3, 4, 5, 6] : List Int).length : Int)
      ∧ ringReplaceTr 0 [1, 2, 3, 4, 5, 6] 6
          = .ok ([1, 2, 3, 4, 5, 6],
              (List.range ([1, 2, 3, 4, 5, 6] : List Int).length).map (fun i : Nat => [(i : Int)]))
      ∧ ringReplace 0 [1, 2, 3, 4, 5, 6] 6 = .ok [1, 2, 3, 4, 5, 6]) :=
  ⟨by decide, by decide, by decide,
    noop_on_multiples 0 [1, 2, 3, 4, 5, 6] 6 (by decide) (by decide) (by decide)⟩

/-- C7, as amended: `rotate` and `reverse` have no empty-sequence guard. On the empty
sequence they return at once as a no-op only for `k = 0` (the test `k == 0` of the first
line); for every `k != 0` the first line evaluates `k % 0` and the call faults with a
division by zero, before any element is touched and whatever the fuel. -/
theorem rotate_reverse_on_empty (fuel : Nat) (k : Int) :
    rotate [] k = (if k = 0 then .ok [] else .error .divideByZero)
    ∧ reverse fuel [] k = (if k = 0 then .ok [] else .error .divideByZero) := by
  by_cases hk : k = 0
  · subst hk
    exact ⟨rfl, rfl⟩
  · have hno : isNoop [] k = .error .divideByZero := by
      simp [isNoop, hk, goMod, bind, Except.bind]
    constructor
    · unfold rotate rotateWith
      rw [hno, if_neg hk]
      rfl
    · unfold reverse
      rw [hno, if_neg hk]
      rfl

/-- C7 fails as stated: on the empty sequence with `k = 1`, both `rotate` and `reverse`
evaluate `k % len(nums)` with `len(nums) = 0` and fault instead of returning. -/
theorem rotate_reverse_fault_on_empty :
    rotate [] 1 = .error .divideByZero ∧ reverse 8 [] 1 = .error .divideByZero := by
  decide

/-- C8, as amended: `ringReplace` has no empty-sequence guard. On the empty sequence, for
every `k` and whatever the fuel, its statement `k %= n` is a remainder by zero and the
call faults with a division by zero; no element is read or written before that. -/
theorem ringReplace_on_empty (fuel : Nat) (k : Int) :
    ringReplaceTr fuel [] k = .error .divideByZero
    ∧ ringReplace fuel [] k = .error .divideByZero := by
  have h : ringReplaceTr fuel [] k = .error .divideByZero := by
    simp [ringReplaceTr, goMod, bind, Except.bind]
  refine ⟨h, ?_⟩
  unfold ringReplace
  rw [h]
  rfl

/-- C8 fails as stated: on the empty sequence with `k = 3`, and also with `k = 0`,
`ringReplace` faults with a division by zero instead of completing as a no-op. -/
theorem ringReplace_fault_on_empty :
    ringReplace 8 [] 3 = .error .divideByZero ∧ ringReplace 8 [] 0 = .error .divideByZero := by
  decide

/-- C9 fails on the code: with 64-bit `int` addition, `rotate([1,2,3], 9223372036854775807)`
passes the first-line test (`k % 3 = 1`), writes index `1` at `i = 0`, and at `i = 1` the
sum `i + k` wraps around to `-9223372036854775808`, whose truncated remainder by `3` is
`-2`: the write `newNums[-2]` is out of range. Over mathematical integers the same call
completes, as do `reverse` and `ringReplace`, which reduce `k` modulo `n` first. -/
theorem rotate64_overflow_fault :
    (0 : Int) ≤ 9223372036854775807 ∧ (9223372036854775807 : Int) < 2 ^ 63
    ∧ isNoop [1, 2, 3] 9223372036854775807 = .ok false
    ∧ add64 1 9223372036854775807 = -9223372036854775808
    ∧ goMod (add64 1 9223372036854775807) 3 = .ok (-2)
    ∧ rotate64 [1, 2, 3] 9223372036854775807 = .error .indexOutOfRange
    ∧ rotate [1, 2, 3] 9223372036854775807 = .ok [3, 1, 2]
    ∧ reverse 3 [1, 2, 3] 9223372036854775807 = .ok [3, 1, 2]
    ∧ ringReplace 3 [1, 2, 3] 9223372036854775807 = .ok [3, 1, 2] := by
  decide

/-- C10: `ringReplace` runs to completion. For every non-empty `nums` of length `n` and
every `k >= 0`, with `r = k mod n` and `g = gcd(r, n)`, given fuel for `n` loop passes:
the call completes; the outer loop makes exactly `g` passes (one record entry each); the
pass with `start = s` writes exactly `n / g` indices, the `t`-th of them being
`(s + (t + 1) * r) mod n`, that is `n / g - 1` writes in the body of `for cur != start`
and the closing write; `cur` differs from `start` after fewer than `n / g` steps and
equals `start` after `n / g` steps; and every index used lies in `[0, n)`. -/
theorem ringReplace_runs_to_completion (fuel : Nat) (nums : List Int) (k : Int)
    (hne : nums ≠ []) (hk : 0 ≤ k) (hfuel : nums.length ≤ fuel) :
    ∃ res record, ringReplaceTr fuel nums k = .ok (res, record)
      ∧ ringReplace fuel nums k = .ok res
      ∧ record.length = Nat.gcd (k.toNat % nums.length) nums.length
      ∧ (∀ s, s < Nat.gcd (k.toNat % nums.length) nums.length →
          ∃ cyc, record[s]? = some cyc
            ∧ cyc.length = nums.length / Nat.gcd (k.toNat % nums.length) nums.length
            ∧ (∀ t, t < nums.length / Nat.gcd (k.toNat % nums.length) nums.length →
                cyc[t]? = some
                  (((s + (t + 1) * (k.toNat % nums.length)) % nums.length : Nat) : Int))
            ∧ (∀ t, t + 1 < nums.length / Nat.gcd (k.toNat % nums.length) nums.length →
                (s + (t + 1) * (k.toNat % nums.length)) % nums.length ≠ s)
            ∧ (s + (nums.length / Nat.gcd (k.toNat % nums.length) nums.length)
                  * (k.toNat % nums.length)) % nums.length = s)
      ∧ ∀ cyc, cyc ∈ record → ∀ x, x ∈ cyc → 0 ≤ x ∧ x < (nums.length : Int) := by
  obtain ⟨a, rfl⟩ := Int.eq_ofNat_of_zero_le hk
  have hn := length_pos_of_ne_nil hne
  have hfe := fuel_enough fuel nums.length a hn hfuel
  have hgle : Nat.gcd (a % nums.length) nums.length ≤ nums.length :=
    Nat.le_of_dvd hn (Nat.gcd_dvd_right _ _)
  simp only [Int.toNat_ofNat]
  refine ⟨rotR nums a, expectedRecord nums.length (a % nums.length),
    ringReplaceTr_eq fuel nums a hn hfe.1 hfe.2, ringReplace_eq_rotR fuel nums a hn hfuel,
    by simp [expectedRecord], ?_, ?_⟩
  · intro s hs
    refine ⟨(cycleOf nums.length (a % nums.length) s).map Int.ofNat, ?_, ?_, ?_, ?_, ?_⟩
    · unfold expectedRecord
      rw [List.getElem?_map, List.getElem?_range' _ _ hs]
      simp
    · simp [length_cycleOf]
    · intro t ht
      unfold cycleOf
      rw [List.getElem?_map, List.getElem?_map, List.getElem?_range' _ _ ht]
      simp only [Option.map_some', Nat.one_mul, orbit, Int.ofNat_eq_coe]
      have : 1 + t = t + 1 := by omega
      rw [this]
    · intro t ht
      have h := orbit_ne nums.length (a % nums.length) s 0 (t + 1) hn (by omega) (by omega)
      rw [orbit_zero _ _ _ (by omega)] at h
      exact fun e => h e.symm
    · exact orbit_period nums.length (a % nums.length) s hn (by omega)
  · intro cyc hcyc x hx
    unfold expectedRecord at hcyc
    rw [List.mem_map] at hcyc
    obtain ⟨i, _, rfl⟩ := hcyc
    rw [List.mem_map] at hx
    obtain ⟨p, hp, rfl⟩ := hx
    obtain ⟨t, _, _, rfl⟩ := (mem_cycleOf _ _ _ _).1 hp
    have := orbit_lt nums.length (a % nums.length) i t hn
    simp only [Int.ofNat_eq_coe]
    omega

/-- Witness of C10 at `nums = [1, 2, 3, 4, 5, 6]`, `k = 4`, fuel `6`: two passes of three
writes each, `[4, 2, 0]` and `[5, 3, 1]`. -/
theorem ringReplace_runs_to_completion_witness :
    ([1, 2, 3, 4, 5, 6] : List Int) ≠ [] ∧ (0 : Int) ≤ 4
    ∧ ([1, 2, 3, 4, 5, 6] : List Int).length ≤ 6
    ∧ ringReplaceTr 6 [1, 2, 3, 4, 5, 6] 4
        = .ok ([3, 4, 5, 6, 1, 2], [[4, 2, 0], [5, 3, 1]])
    ∧ ∃ res record, ringReplaceTr 6 [1, 2, 3, 4, 5, 6] 4 = .ok (res, record)
      ∧ ringReplace 6 [1, 2, 3, 4, 5, 6] 4 = .ok res
      ∧ record.length = Nat.gcd ((4 : Int).toNat % ([1, 2, 3, 4, 5, 6] : List Int).length)
          ([1, 2, 3, 4, 5, 6] : List Int).length
      ∧ (∀ s, s < Nat.gcd ((4 : Int).toNat % ([1, 2, 3, 4, 5, 6] : List Int).length)
            ([1, 2, 3, 4, 5, 6] : List Int).length →
          ∃ cyc, record[s]? = some cyc
            ∧ cyc.length = ([1, 2, 3, 4, 5, 6] : List Int).length
                / Nat.gcd ((4 : Int).toNat % ([1, 2, 3, 4, 5, 6] : List Int).length)
                    ([1, 2, 3, 4, 5, 6] : List Int).length
            ∧ (∀ t, t < ([1, 2, 3, 4, 5, 6] : List Int).length
                  / Nat.gcd ((4 : Int).toNat % ([1, 2, 3, 4, 5, 6] : List Int).length)
                      ([1, 2, 3, 4, 5, 6] : List Int).length →
                cyc[t]? = some
                  (((s + (t + 1) * ((4 : Int).toNat % ([1, 2, 3, 4, 5, 6] : List Int).length))
                      % ([1, 2, 3, 4, 5, 6] : List Int).length : Nat) : Int))
            ∧ (∀ t, t + 1 < ([1, 2, 3, 4, 5, 6] : List Int).length
                  / Nat.gcd ((4 : Int).toNat % ([1, 2, 3, 4, 5, 6] : List Int).length)
                      ([1, 2, 3, 4, 5, 6] : List Int).length →
                (s + (t + 1) * ((4 : Int).toNat % ([1, 2, 3, 4, 5, 6] : List Int).length))
                    % ([1, 2, 3, 4, 5, 6] : List Int).length ≠ s)
            ∧ (s + (([1, 2, 3, 4, 5, 6] : List Int).length
                    / Nat.gcd ((4 : Int).toNat % ([1, 2, 3, 4, 5, 6] : List Int).length)
                        ([1, 2, 3, 4, 5, 6] : List Int).length)
                  * ((4 : Int).toNat % ([1, 2, 3, 4, 5, 6] : List Int).length))
                % ([1, 2, 3, 4, 5, 6] : List Int).length = s)
      ∧ ∀ cyc, cyc ∈ record → ∀ x, x ∈ cyc →
          0 ≤ x ∧ x < (([1, 2, 3, 4, 5, 6] : List Int).length : Int) :=
  ⟨by decide, by decide, by decide, by decide,
    ringReplace_runs_to_completion 6 [1, 2, 3, 4, 5, 6] 4
      (by decide) (by decide) (by decide)⟩

/-! ## Claims on `gcd` and `reverseSlice` -/

/-- C11: `gcd` computes the greatest common divisor. For all non-negative integers `a`
and `b`, given fuel for `a` passes of the loop, `gcd(a, b)` completes and returns the
mathematical greatest common divisor of `a` and `b`: it divides both, and every common
divisor divides it; `gcd(0, b) = b`, `gcd(a, 0) = a` and `gcd(0, 0) = 0`. -/
theorem gcd_computes_gcd (fuel : Nat) (a b : Int) (ha : 0 ≤ a) (hb : 0 ≤ b)
    (hfuel : a.toNat ≤ fuel) :
    gcd fuel a b = .ok ((Int.gcd a b : Nat) : Int)
    ∧ ((Int.gcd a b : Nat) : Int) ∣ a ∧ ((Int.gcd a b : Nat) : Int) ∣ b
    ∧ (∀ d : Int, d ∣ a → d ∣ b → d ∣ ((Int.gcd a b : Nat) : Int))
    ∧ gcd fuel 0 b = .ok b
    ∧ gcd fuel a 0 = .ok a
    ∧ gcd fuel 0 0 = .ok 0 := by
  obtain ⟨a, rfl⟩ := Int.eq_ofNat_of_zero_le ha
  obtain ⟨b, rfl⟩ := Int.eq_ofNat_of_zero_le hb
  have hfa : a ≤ fuel := by simpa using hfuel
  have h1 := gcdLoop_nat fuel a b hfa
  have h2 := gcdLoop_nat fuel 0 b (Nat.zero_le _)
  have h3 := gcdLoop_nat fuel a 0 hfa
  have h4 := gcdLoop_nat fuel 0 0 (Nat.zero_le _)
  simp only [Nat.gcd_zero_left, Nat.gcd_zero_right] at h2 h3 h4
  refine ⟨?_, Int.gcd_dvd_left, Int.gcd_dvd_right, fun d hda hdb => Int.dvd_gcd hda hdb,
    h2, h3, h4⟩
  unfold gcd
  rw [h1]
  rfl

/-- Witness of C11 at `a = 12`, `b = 18`, fuel `12`. -/
theorem gcd_computes_gcd_witness :
    (0 : Int) ≤ 12 ∧ (0 : Int) ≤ 18 ∧ (12 : Int).toNat ≤ 12 ∧ gcd 12 12 18 = .ok 6
    ∧ (gcd 12 12 18 = .ok ((Int.gcd 12 18 : Nat) : Int)
      ∧ ((Int.gcd 12 18 : Nat) : Int) ∣ 12 ∧ ((Int.gcd 12 18 : Nat) : Int) ∣ 18
      ∧ (∀ d : Int, d ∣ 12 → d ∣ 18 → d ∣ ((Int.gcd 12 18 : Nat) : Int))
      ∧ gcd 12 0 18 = .ok 18
      ∧ gcd 12 12 0 = .ok 12
      ∧ gcd 12 0 0 = .ok 0) :=
  ⟨by decide, by decide, by decide, by decide,
    gcd_computes_gcd 12 12 18 (by decide) (by decide) (by decide)⟩

theorem rotR_perm (nums : List Int) (k : Nat) : (rotR nums k).Perm nums :=
  List.rotate_perm nums _

/-- C15: `reverseSlice` reverses its argument in place. For every slice `nums` of length
`m` (also `m = 0` and `m = 1`), given fuel for `m / 2` swaps, `reverseSlice` completes,
so without an out-of-range access, and its result has length `m`, holds
`nums[m - 1 - i]` at every index `i` in `[0, m)`, and is the reversed list. -/
theorem reverseSlice_reverses (fuel : Nat) (nums : List Int)
    (hfuel : nums.length / 2 ≤ fuel) :
    ∃ res, reverseSlice fuel nums = .ok res ∧ res.length = nums.length
      ∧ (∀ i, i < nums.length → res[i]? = nums[nums.length - 1 - i]?)
      ∧ res = nums.reverse := by
  refine ⟨nums.reverse, reverseSlice_eq fuel nums hfuel, List.length_reverse nums, ?_, rfl⟩
  intro i hi
  exact List.getElem?_reverse hi

/-- Witness of C15 at `nums = [1, 2, 3, 4, 5]` with fuel `2`; the empty and the one-element
slice need no fuel. -/
theorem reverseSlice_reverses_witness :
    ([1, 2, 3, 4, 5] : List Int).length / 2 ≤ 2
    ∧ reverseSlice 2 [1, 2, 3, 4, 5] = .ok [5, 4, 3, 2, 1]
    ∧ reverseSlice 0 [] = .ok [] ∧ reverseSlice 0 [9] = .ok [9]
    ∧ ∃ res, reverseSlice 2 [1, 2, 3, 4, 5] = .ok res
      ∧ res.length = ([1, 2, 3, 4, 5] : List Int).length
      ∧ (∀ i, i < ([1, 2, 3, 4, 5] : List Int).length →
          res[i]? = ([1, 2, 3, 4, 5] : List Int)[([1, 2, 3, 4, 5] : List Int).length - 1 - i]?)
      ∧ res = ([1, 2, 3, 4, 5] : List Int).reverse :=
  ⟨by decide, by decide, by decide, by decide,
    reverseSlice_reverses 2 [1, 2, 3, 4, 5] (by decide)⟩

/-! ## The cycle decomposition -/

theorem flatten_expectedRecord (n r : Nat) :
    (expectedRecord n r).flatten
      = ((List.range' 0 (Nat.gcd r n)).flatMap (cycleOf n r)).map Int.ofNat := by
  unfold expectedRecord
  rw [List.flatMap_def, List.map_flatten, List.map_map]
  rfl

theorem allCycles_perm_range (n r : Nat) (hn : 0 < n) :
    ((List.range' 0 (Nat.gcd r n)).flatMap (cycleOf n r)).Perm (List.range n) := by
  rw [List.perm_ext_iff_of_nodup (nodup_allCycles n r hn) (List.nodup_range n)]
  intro p
  constructor
  · intro hp
    rw [List.mem_flatMap] at hp
    obtain ⟨i, _, hpi⟩ := hp
    obtain ⟨t, _, _, rfl⟩ := (mem_cycleOf _ _ _ _).1 hpi
    exact List.mem_range.2 (orbit_lt _ _ _ _ hn)
  · intro hp
    exact mem_allCycles n r p hn (List.mem_range.1 hp)

/-- Every point of the orbit of `i` is one of the `n / gcd r n` cells of its cycle. -/
theorem orbit_mem_cycleOf (n r i t : Nat) (hn : 0 < n) (hi : i < n) :
    orbit n r i t ∈ cycleOf n r i := by
  have hm := period_pos n r hn
  rw [mem_cycleOf]
  by_cases h0 : t % (n / Nat.gcd r n) = 0
  · refine ⟨n / Nat.gcd r n, hm, Nat.le_refl _, ?_⟩
    rw [orbit_period n r i hn hi]
    have h := (orbit_eq_iff n r i 0 t hn (Nat.zero_le _)).2
      (by rw [Nat.sub_zero]; exact Nat.dvd_of_mod_eq_zero h0)
    rw [← h, orbit_zero n r i hi]
  · refine ⟨t % (n / Nat.gcd r n), by omega, Nat.le_of_lt (Nat.mod_lt _ hm), ?_⟩
    exact (orbit_eq_iff n r i _ t hn (Nat.mod_le _ _)).2 (Nat.dvd_sub_mod t)

/-- C16: cycle decomposition in `ringReplace`. For every non-empty `nums` of length `n`
and every `k >= 0`, with `r = k mod n` and `g = gcd(r, n)`, given fuel for `n` loop passes:
the call completes after `g` passes of the outer loop; the indices written in the pass
with `start = s` are exactly the orbit of `s` under `i -> (i + r) mod n`; the index sets of
different passes are disjoint; every index of `[0, n)` is written in some pass and no other
index is; and over the whole call each of the `n` indices is written exactly once. -/
theorem cycle_decomposition (fuel : Nat) (nums : List Int) (k : Int)
    (hne : nums ≠ []) (hk : 0 ≤ k) (hfuel : nums.length ≤ fuel) :
    ∃ res record, ringReplaceTr fuel nums k = .ok (res, record)
      ∧ record.length = Nat.gcd (k.toNat % nums.length) nums.length
      ∧ (∀ s, s < Nat.gcd (k.toNat % nums.length) nums.length →
          ∃ cyc, record[s]? = some cyc ∧
            ∀ x : Int, x ∈ cyc ↔
              ∃ t : Nat, x = (((s + t * (k.toNat % nums.length)) % nums.length : Nat) : Int))
      ∧ record.Pairwise List.Disjoint
      ∧ (∀ p : Nat, p < nums.length → ∃ cyc, cyc ∈ record ∧ (p : Int) ∈ cyc)
      ∧ (∀ cyc, cyc ∈ record → ∀ x, x ∈ cyc → 0 ≤ x ∧ x < (nums.length : Int))
      ∧ record.flatten.length = nums.length
      ∧ record.flatten.Perm ((List.range nums.length).map Int.ofNat)
      ∧ ∀ p : Nat, p < nums.length → record.flatten.count (p : Int) = 1 := by
  obtain ⟨a, rfl⟩ := Int.eq_ofNat_of_zero_le hk
  have hn := length_pos_of_ne_nil hne
  have hfe := fuel_enough fuel nums.length a hn hfuel
  have hgle : Nat.gcd (a % nums.length) nums.length ≤ nums.length :=
    Nat.le_of_dvd hn (Nat.gcd_dvd_right _ _)
  have hinj : Function.Injective Int.ofNat := fun x y h => Int.ofNat.inj h
  have hperm : (expectedRecord nums.length (a % nums.length)).flatten.Perm
      ((List.range nums.length).map Int.ofNat) := by
    rw [flatten_expectedRecord]
    exact (allCycles_perm_range nums.length (a % nums.length) hn).map _
  have hnd : (expectedRecord nums.length (a % nums.length)).flatten.Nodup := by
    rw [flatten_expectedRecord]
    exact (nodup_allCycles nums.length (a % nums.length) hn).map hinj
  have hmemrec : ∀ cyc, cyc ∈ expectedRecord nums.length (a % nums.length) →
      ∃ i, i < Nat.gcd (a % nums.length) nums.length
        ∧ cyc = (cycleOf nums.length (a % nums.length) i).map Int.ofNat := by
    intro cyc hcyc
    unfold expectedRecord at hcyc
    rw [List.mem_map] at hcyc
    obtain ⟨i, hi, rfl⟩ := hcyc
    rw [List.mem_range'_1] at hi
    exact ⟨i, by omega, rfl⟩
  simp only [Int.toNat_ofNat]
  refine ⟨rotR nums a, expectedRecord nums.length (a % nums.length),
    ringReplaceTr_eq fuel nums a hn hfe.1 hfe.2, by simp [expectedRecord],
    ?_, (List.nodup_flatten.1 hnd).2, ?_, ?_, ?_, hperm, ?_⟩
  · intro s hs
    refine ⟨(cycleOf nums.length (a % nums.length) s).map Int.ofNat, ?_, ?_⟩
    · unfold expectedRecord
      rw [List.getElem?_map, List.getElem?_range' _ _ hs]
      simp
    · intro x
      rw [List.mem_map]
      constructor
      · rintro ⟨p, hp, rfl⟩
        obtain ⟨t, _, _, rfl⟩ := (mem_cycleOf _ _ _ _).1 hp
        exact ⟨t, rfl⟩
      · rintro ⟨t, rfl⟩
        exact ⟨orbit nums.length (a % nums.length) s t,
          orbit_mem_cycleOf _ _ _ _ hn (by omega), rfl⟩
  · intro p hp
    have hmem : (p : Int) ∈ (expectedRecord nums.length (a % nums.length)).flatten := by
      rw [hperm.mem_iff, List.mem_map]
      exact ⟨p, List.mem_range.2 hp, rfl⟩
    rw [List.mem_flatten] at hmem
    exact hmem
  · intro cyc hcyc x hx
    obtain ⟨i, _, rfl⟩ := hmemrec cyc hcyc
    rw [List.mem_map] at hx
    obtain ⟨p, hp, rfl⟩ := hx
    obtain ⟨t, _, _, rfl⟩ := (mem_cycleOf _ _ _ _).1 hp
    have := orbit_lt nums.length (a % nums.length) i t hn
    simp only [Int.ofNat_eq_coe]
    omega
  · rw [hperm.length_eq]
    simp
  · intro p hp
    apply List.count_eq_one_of_mem hnd
    rw [hperm.mem_iff, List.mem_map]
    exact ⟨p, List.mem_range.2 hp, rfl⟩

/-- Witness of C16 at `nums = [1, 2, 3, 4, 5, 6]`, `k = 4`, fuel `6`: the passes write
`[4, 2, 0]` and `[5, 3, 1]`. -/
theorem cycle_decomposition_witness :
    ([1, 2, 3, 4, 5, 6] : List Int) ≠ [] ∧ (0 : Int) ≤ 4
    ∧ ([1, 2, 3, 4, 5, 6] : List Int).length ≤ 6
    ∧ ringReplaceTr 6 [1, 2, 3, 4, 5, 6] 4
        = .ok ([3, 4, 5, 6, 1, 2], [[4, 2, 0], [5, 3, 1]])
    ∧ (∃ res record, ringReplaceTr 6 [1, 2, 3, 4, 5, 6] 4 = .ok (res, record)
      ∧ record.length = Nat.gcd ((4 : Int).toNat % ([1, 2, 3, 4, 5, 6] : List Int).length) ([1, 2, 3, 4, 5, 6] : List Int).length
      ∧ (∀ s, s < Nat.gcd ((4 : Int).toNat % ([1, 2, 3, 4, 5, 6] : List Int).length) ([1, 2, 3, 4, 5, 6] : List Int).length →
          ∃ cyc, record[s]? = some cyc ∧
            ∀ x : Int, x ∈ cyc ↔
              ∃ t : Nat, x = (((s + t * ((4 : Int).toNat % ([1, 2, 3, 4, 5, 6] : List Int).length)) % ([1, 2, 3, 4, 5, 6] : List Int).length : Nat) : Int))
      ∧ record.Pairwise List.Disjoint
      ∧ (∀ p : Nat, p < ([1, 2, 3, 4, 5, 6] : List Int).length → ∃ cyc, cyc ∈ record ∧ (p : Int) ∈ cyc)
      ∧ (∀ cyc, cyc ∈ record → ∀ x, x ∈ cyc → 0 ≤ x ∧ x < (([1, 2, 3, 4, 5, 6] : List Int).length : Int))
      ∧ record.flatten.length = ([1, 2, 3, 4, 5, 6] : List Int).length
      ∧ record.flatten.Perm ((List.range ([1, 2, 3, 4, 5, 6] : List Int).length).map Int.ofNat)
      ∧ ∀ p : Nat, p < ([1, 2, 3, 4, 5, 6] : List Int).length → record.flatten.count (p : Int) = 1) :=
  ⟨by decide, by decide, by decide, by decide,
    cycle_decomposition 6 [1, 2, 3, 4, 5, 6] 4 (by decide) (by decide) (by decide)⟩

/-! ## Length preservation, for every input and every amount of fuel -/

theorem bind_ok_iff {α β : Type} (x : Run α) (f : α → Run β) (b : β) :
    (x >>= f) = .ok b ↔ ∃ a, x = .ok a ∧ f a = .ok b := by
  cases x <;> simp [bind, Except.bind]

theorem writeAt_length (nums : List Int) (i v : Int) (res : List Int)
    (h : writeAt nums i v = .ok res) : res.length = nums.length := by
  unfold writeAt at h
  split at h
  · injection h with h
    rw [← h, List.length_set]
  · cases h

theorem forLoop_invariant {σ : Type} (body : Int → σ → Run σ) (P : σ → Prop)
    (hbody : ∀ i s s1, P s → body i s = .ok s1 → P s1)
    (rem : Nat) (i : Int) (s s1 : σ) (hs : P s) (h : forLoop body rem i s = .ok s1) :
    P s1 := by
  induction rem generalizing i s with
  | zero =>
    simp only [forLoop] at h
    injection h with h
    rw [← h]; exact hs
  | succ rem ih =>
    simp only [forLoop] at h
    split at h
    · cases h
    · next s2 hb => exact ih (i + 1) s2 (hbody i s s2 hs hb) h

theorem rotateWith_length (add : Int → Int → Int) (nums : List Int) (k : Int)
    (res : List Int) (h : rotateWith add nums k = .ok res) : res.length = nums.length := by
  unfold rotateWith at h
  rw [bind_ok_iff] at h
  obtain ⟨c, _, h⟩ := h
  cases c
  · simp only [Bool.false_eq_true, if_false] at h
    rw [bind_ok_iff] at h
    obtain ⟨_, _, h⟩ := h
    rw [bind_ok_iff] at h
    obtain ⟨newNums, _, h⟩ := h
    refine forLoop_invariant _ (fun acc : List Int => acc.length = nums.length) ?_
      _ _ _ _ rfl h
    intro i s s1 hs hb
    rw [bind_ok_iff] at hb
    obtain ⟨v, _, hw⟩ := hb
    rw [writeAt_length _ _ _ _ hw, hs]
  · simp only [if_true] at h
    injection h with h
    rw [← h]

theorem reverseSliceLoop_length (fuel : Nat) (nums : List Int) (l r : Int) (res : List Int)
    (h : reverseSliceLoop fuel nums l r = .ok res) : res.length = nums.length := by
  induction fuel generalizing nums l r with
  | zero =>
    simp only [reverseSliceLoop] at h
    split at h
    · cases h
    · injection h with h; rw [← h]
  | succ fuel ih =>
    simp only [reverseSliceLoop] at h
    split at h
    · rw [bind_ok_iff] at h
      obtain ⟨tmp, _, h⟩ := h
      rw [bind_ok_iff] at h
      obtain ⟨x, _, h⟩ := h
      rw [bind_ok_iff] at h
      obtain ⟨n1, h1, h⟩ := h
      rw [bind_ok_iff] at h
      obtain ⟨n2, h2, h⟩ := h
      rw [ih n2 _ _ h, writeAt_length _ _ _ _ h2, writeAt_length _ _ _ _ h1]
    · injection h with h; rw [← h]

theorem reverseSlice_length (fuel : Nat) (nums res : List Int)
    (h : reverseSlice fuel nums = .ok res) : res.length = nums.length :=
  reverseSliceLoop_length fuel nums _ _ res h

theorem reverse_length (fuel : Nat) (nums : List Int) (k : Int) (res : List Int)
    (h : reverse fuel nums k = .ok res) : res.length = nums.length := by
  unfold reverse at h
  rw [bind_ok_iff] at h
  obtain ⟨c, _, h⟩ := h
  cases c
  · simp only [Bool.false_eq_true, if_false] at h
    rw [bind_ok_iff] at h
    obtain ⟨_, _, h⟩ := h
    rw [bind_ok_iff] at h
    obtain ⟨k1, _, h⟩ := h
    rw [bind_ok_iff] at h
    obtain ⟨n1, h1, h⟩ := h
    split at h
    · rw [bind_ok_iff] at h
      obtain ⟨_, hthrow, _⟩ := h
      cases hthrow
    · rw [bind_ok_iff] at h
      obtain ⟨_, _, h⟩ := h
      rw [bind_ok_iff] at h
      obtain ⟨left, hl, h⟩ := h
      rw [bind_ok_iff] at h
      obtain ⟨right, hr, h⟩ := h
      injection h with h
      have e1 := reverseSlice_length _ _ _ h1
      have e2 := reverseSlice_length _ _ _ hl
      have e3 := reverseSlice_length _ _ _ hr
      rw [← h]
      simp only [List.length_append, List.length_take, List.length_drop] at e2 e3 ⊢
      omega
  · simp only [if_true] at h
    injection h with h
    rw [← h]

theorem ringInner_length (n k start : Int) (fuel : Nat) (c c1 : Cursor)
    (h : ringInner n k start fuel c = .ok c1) : c1.nums.length = c.nums.length := by
  induction fuel generalizing c with
  | zero =>
    simp only [ringInner] at h
    split at h
    · cases h
    · injection h with h; rw [← h]
  | succ fuel ih =>
    simp only [ringInner] at h
    split at h
    · rw [bind_ok_iff] at h
      obtain ⟨n1, h1, h⟩ := h
      rw [bind_ok_iff] at h
      obtain ⟨cur, _, h⟩ := h
      rw [bind_ok_iff] at h
      obtain ⟨cv, _, h⟩ := h
      rw [ih _ h]
      exact writeAt_length _ _ _ _ h1
    · injection h with h; rw [← h]

theorem ringPass_length (fuel : Nat) (n k i : Int) (st st1 : List Int × List (List Int))
    (h : ringPass fuel n k i st = .ok st1) : st1.1.length = st.1.length := by
  unfold ringPass at h
  rw [bind_ok_iff] at h
  obtain ⟨cur, _, h⟩ := h
  rw [bind_ok_iff] at h
  obtain ⟨pv, _, h⟩ := h
  rw [bind_ok_iff] at h
  obtain ⟨cv, _, h⟩ := h
  rw [bind_ok_iff] at h
  obtain ⟨c, hc, h⟩ := h
  rw [bind_ok_iff] at h
  obtain ⟨n1, h1, h⟩ := h
  injection h with h
  rw [← h]
  simp only []
  rw [writeAt_length _ _ _ _ h1, ringInner_length _ _ _ _ _ _ hc]

theorem ringReplaceTr_length (fuel : Nat) (nums : List Int) (k : Int)
    (st : List Int × List (List Int)) (h : ringReplaceTr fuel nums k = .ok st) :
    st.1.length = nums.length := by
  unfold ringReplaceTr at h
  rw [bind_ok_iff] at h
  obtain ⟨k1, _, h⟩ := h
  rw [bind_ok_iff] at h
  obtain ⟨t, _, h⟩ := h
  refine forLoop_invariant _
    (fun s : List Int × List (List Int) => s.1.length = nums.length) ?_ _ _ _ _ rfl h
  intro i s s1 hs hb
  rw [ringPass_length _ _ _ _ _ _ hb, hs]

theorem ringReplace_length (fuel : Nat) (nums : List Int) (k : Int) (res : List Int)
    (h : ringReplace fuel nums k = .ok res) : res.length = nums.length := by
  unfold ringReplace at h
  rw [bind_ok_iff] at h
  obtain ⟨st, hst, h⟩ := h
  injection h with h
  rw [← h]
  exact ringReplaceTr_length fuel nums k st hst

/-- C13: length preservation. For every sequence, every integer `k` (negative ones
included) and every amount of fuel: whenever a call of `rotate` (over mathematical integers
or with 64-bit addition), `reverse` or `ringReplace` completes, the sequence it leaves has
the length of the sequence it was given. -/
theorem length_preserved (fuel : Nat) (nums : List Int) (k : Int) (res : List Int)
    (h : rotate nums k = .ok res ∨ rotate64 nums k = .ok res
      ∨ reverse fuel nums k = .ok res ∨ ringReplace fuel nums k = .ok res) :
    res.length = nums.length := by
  rcases h with h | h | h | h
  · exact rotateWith_length _ nums k res h
  · exact rotateWith_length _ nums k res h
  · exact reverse_length fuel nums k res h
  · exact ringReplace_length fuel nums k res h

/-- Witness of C13 at the completed call `reverse([1, 2, 3, 4, 5], 2)` with fuel `2`. -/
theorem length_preserved_witness :
    (rotate [1, 2, 3, 4, 5] 2 = .ok [4, 5, 1, 2, 3]
      ∨ rotate64 [1, 2, 3, 4, 5] 2 = .ok [4, 5, 1, 2, 3]
      ∨ reverse 2 [1, 2, 3, 4, 5] 2 = .ok [4, 5, 1, 2, 3]
      ∨ ringReplace 2 [1, 2, 3, 4, 5] 2 = .ok [4, 5, 1, 2, 3])
    ∧ ([4, 5, 1, 2, 3] : List Int).length = ([1, 2, 3, 4, 5] : List Int).length :=
  ⟨Or.inr (Or.inr (Or.inl (by decide))),
    length_preserved 2 [1, 2, 3, 4, 5] 2 [4, 5, 1, 2, 3] (Or.inr (Or.inr (Or.inl (by decide))))⟩

/-! ## Negative `k`: truncated remainders and their consequences -/

theorem tmod_neg_nat (m n : Nat) :
    Int.tmod (-(m : Int)) (n : Int) = -((m % n : Nat) : Int) := by
  cases m with
  | zero => simp
  | succ m => rfl

theorem natAbs_tmod_lt (a b : Int) (ha : a ≠ 0) : (Int.tmod b a).natAbs < a.natAbs := by
  have hx : 0 < a.natAbs := Int.natAbs_pos.2 ha
  have key : ∀ x : Nat, 0 < x → (Int.tmod b (x : Int)).natAbs < x := by
    intro x hx
    rcases Int.natAbs_eq b with hb | hb
    · rw [hb, ← Int.ofNat_tmod, Int.natAbs_ofNat]
      exact Nat.mod_lt _ hx
    · rw [hb, tmod_neg_nat, Int.natAbs_neg, Int.natAbs_ofNat]
      exact Nat.mod_lt _ hx
  rcases Int.natAbs_eq a with h | h
  · have := key a.natAbs hx
    rw [← h] at this
    exact this
  · have := key a.natAbs hx
    rw [← Int.tmod_neg, ← h] at this
    exact this

theorem gcdLoop_zero (fuel : Nat) (b : Int) : gcdLoop fuel 0 b = .ok b := by
  cases fuel <;> simp [gcdLoop]

/-- The loop of `gcd` ends for all integers, given fuel for `|a|` passes. -/
theorem gcdLoop_total (fuel : Nat) (a b : Int) (h : a.natAbs ≤ fuel) :
    ∃ g, gcdLoop fuel a b = .ok g := by
  induction fuel generalizing a b with
  | zero =>
    have ha : a = 0 := Int.natAbs_eq_zero.1 (by omega)
    subst ha
    exact ⟨b, gcdLoop_zero 0 b⟩
  | succ fuel ih =>
    by_cases ha : a = 0
    · subst ha
      exact ⟨b, gcdLoop_zero _ b⟩
    · have hlt := natAbs_tmod_lt a b ha
      obtain ⟨g, hg⟩ := ih (Int.tmod b a) a (by omega)
      refine ⟨g, ?_⟩
      simp only [gcdLoop, ha, ne_eq, not_false_eq_true, if_true, goMod, if_false, bind,
        Except.bind]
      exact hg

theorem neg_of_lt_zero (k : Int) (hk : k < 0) : ∃ m : Nat, 0 < m ∧ k = -(m : Int) :=
  ⟨(-k).toNat, by omega, by omega⟩

theorem goMod_neg_nat (m n : Nat) (hn : 0 < n) :
    goMod (-(m : Int)) (n : Int) = .ok (-((m % n : Nat) : Int)) := by
  have hn0 : (n : Int) ≠ 0 := by omega
  simp only [goMod, hn0, if_false, tmod_neg_nat]

theorem isNoop_neg (nums : List Int) (m : Nat) (hn : 0 < nums.length) (hm : 0 < m) :
    isNoop nums (-(m : Int)) = .ok (decide (m % nums.length = 0)) := by
  have hk0 : (-(m : Int)) ≠ 0 := by omega
  simp only [isNoop, hk0, if_false, goMod_neg_nat m nums.length hn]
  simp only [bind, Except.bind, pure, Except.pure]
  congr 1
  have : ((-((m % nums.length : Nat) : Int)) = 0) = (m % nums.length = 0) := by
    apply propext; constructor <;> intro h <;> omega
  simp only [this]

theorem rotateWith_of_noop (add : Int → Int → Int) (nums : List Int) (k : Int)
    (h : isNoop nums k = .ok true) : rotateWith add nums k = .ok nums := by
  unfold rotateWith
  rw [h]
  rfl

theorem reverse_of_noop (fuel : Nat) (nums : List Int) (k : Int)
    (h : isNoop nums k = .ok true) : reverse fuel nums k = .ok nums := by
  unfold reverse
  rw [h]
  rfl

/-- For a negative `k` that is not a multiple of the length, the first write of the copy
loop of `rotate` has a negative index. -/
theorem rotate_neg_fault (nums : List Int) (m : Nat) (hn : 0 < nums.length)
    (hr : m % nums.length ≠ 0) : rotate nums (-(m : Int)) = .error .indexOutOfRange := by
  have hm : 0 < m := by
    rcases Nat.eq_zero_or_pos m with h | h
    · subst h; simp at hr
    · exact h
  obtain ⟨n1, hn1⟩ : ∃ n1, nums.length = n1 + 1 := ⟨nums.length - 1, by omega⟩
  have hw : ∀ (acc : List Int) (v : Int),
      writeAt acc (-((m % nums.length : Nat) : Int)) v = .error .indexOutOfRange := by
    intro acc v
    have : ¬ (0 ≤ -((m % nums.length : Nat) : Int)
        ∧ -((m % nums.length : Nat) : Int) < (acc.length : Int)) := by omega
    simp only [writeAt, this, if_false]
  have h0 : ((0 : Nat) : Int) = 0 := rfl
  have hread := readAt_nat nums 0 hn
  rw [h0] at hread
  unfold rotate rotateWith
  rw [isNoop_neg nums m hn hm]
  simp only [hr, decide_False, bind, Except.bind, Bool.false_eq_true, if_false, pure,
    Except.pure]
  conv_lhs => rw [hn1]
  simp only [forLoop, Int.zero_add, ← hn1, goMod_neg_nat m nums.length hn, hread, hw]

/-- For a negative `k` that is not a multiple of the length, the slice expression
`nums[:k]` of `reverse` has a negative bound. -/
theorem reverse_neg_fault (fuel : Nat) (nums : List Int) (m : Nat) (hn : 0 < nums.length)
    (hr : m % nums.length ≠ 0) (hfuel : nums.length / 2 ≤ fuel) :
    reverse fuel nums (-(m : Int)) = .error .sliceOutOfRange := by
  have hm : 0 < m := by
    rcases Nat.eq_zero_or_pos m with h | h
    · subst h; simp at hr
    · exact h
  have hc : ¬ (0 ≤ -((m % nums.length : Nat) : Int)
      ∧ -((m % nums.length : Nat) : Int) ≤ (nums.reverse.length : Int)) := by omega
  unfold reverse
  rw [isNoop_neg nums m hn hm]
  simp only [hr, decide_False, bind, Except.bind, Bool.false_eq_true, if_false, pure,
    Except.pure, goMod_neg_nat m nums.length hn, reverseSlice_eq fuel nums hfuel, hc,
    not_false_eq_true, if_true]

/-- With a negative reduced step, the first pass of the outer loop of `ringReplace` reads
`nums[cur]` at a negative `cur`. -/
theorem ringPass_neg_fault (fuel : Nat) (nums : List Int) (r : Nat) (hn : 0 < nums.length)
    (hr0 : 0 < r) (hr : r < nums.length) (log : List (List Int)) :
    ringPass fuel (nums.length : Int) (-(r : Int)) 0 (nums, log)
      = .error .indexOutOfRange := by
  have h0 : ((0 : Nat) : Int) = 0 := rfl
  have hread := readAt_nat nums 0 hn
  rw [h0] at hread
  have hbad : readAt nums (-((r % nums.length : Nat) : Int)) = .error .indexOutOfRange := by
    rw [Nat.mod_eq_of_lt hr]
    have : ¬ (0 ≤ -(r : Int) ∧ -(r : Int) < (nums.length : Int)) := by omega
    simp only [readAt, this, if_false]
  unfold ringPass
  simp only [Int.zero_add, goMod_neg_nat r nums.length hn, bind, Except.bind, hread, hbad]

/-- For a negative `k` that is not a multiple of the length, `ringReplace` either skips its
outer loop (when `gcd` returns a value that is not positive) or faults in the first pass. -/
theorem ringReplaceTr_neg (fuel : Nat) (nums : List Int) (m : Nat) (hn : 0 < nums.length)
    (hr : m % nums.length ≠ 0) (hfuel : nums.length ≤ fuel) :
    ∃ t, gcd fuel (-((m % nums.length : Nat) : Int)) (nums.length : Int) = .ok t
      ∧ ringReplaceTr fuel nums (-(m : Int))
          = if t ≤ 0 then .ok (nums, []) else .error .indexOutOfRange := by
  have hlt : m % nums.length < nums.length := Nat.mod_lt _ hn
  obtain ⟨t, ht⟩ := gcdLoop_total fuel (-((m % nums.length : Nat) : Int)) (nums.length : Int)
    (by omega)
  refine ⟨t, ht, ?_⟩
  unfold ringReplaceTr gcd
  simp only [goMod_neg_nat m nums.length hn, bind, Except.bind, ht]
  by_cases htp : t ≤ 0
  · have : t.toNat = 0 := by omega
    simp only [htp, if_true, this, forLoop]
  · obtain ⟨q, hq⟩ : ∃ q, t.toNat = q + 1 := ⟨t.toNat - 1, by omega⟩
    simp only [htp, if_false, hq, forLoop,
      ringPass_neg_fault fuel nums (m % nums.length) hn (by omega) hlt []]

theorem ringReplace_of_tr (fuel : Nat) (nums : List Int) (k : Int)
    (r : Run (List Int × List (List Int))) (h : ringReplaceTr fuel nums k = r) :
    ringReplace fuel nums k = r.map Prod.fst := by
  unfold ringReplace
  rw [h]
  cases r <;> rfl

/-- After `k %= n` gives `0`, `ringReplace` proceeds as for `k = 0`. -/
theorem ringReplaceTr_neg_multiple (fuel : Nat) (nums : List Int) (m : Nat)
    (hn : 0 < nums.length) (hr : m % nums.length = 0) :
    ringReplaceTr fuel nums (-(m : Int))
      = .ok (nums, (List.range nums.length).map (fun i : Nat => [(i : Int)])) := by
  have h0 := ringReplaceTr_eq fuel nums 0 hn (by simp)
    (by rw [Nat.zero_mod, Nat.gcd_zero_left, Nat.div_self hn]; omega)
  rw [rotR_of_mod_eq_zero nums 0 (Nat.zero_mod _), Nat.zero_mod,
    expectedRecord_zero _ hn] at h0
  rw [← h0]
  unfold ringReplaceTr
  simp only [goMod_neg_nat m nums.length hn, hr, goMod_nat 0 nums.length hn, Nat.zero_mod]
  rfl

theorem outcome_on_empty (fuel : Nat) (k : Int) :
    rotate [] k = (if k = 0 then .ok [] else .error .divideByZero)
    ∧ reverse fuel [] k = (if k = 0 then .ok [] else .error .divideByZero) := by
  by_cases hk : k = 0
  · subst hk
    exact ⟨rfl, rfl⟩
  · have hno : isNoop [] k = .error .divideByZero := by
      simp [isNoop, hk, goMod, bind, Except.bind]
    constructor
    · unfold rotate rotateWith
      rw [hno, if_neg hk]
      rfl
    · unfold reverse
      rw [hno, if_neg hk]
      rfl

/-! ## Claims on negative `k` -/

/-- C14, as amended: behaviour on negative `k`. For every non-empty sequence `S` of
length `n` and every negative `k`, given fuel for `n` loop passes: if `k % n == 0` (Go's
truncated remainder), `rotate`, `reverse` and `ringReplace` all complete and leave `S`
unchanged; if `k % n != 0`, `rotate` faults on an index and `reverse` on a slice bound,
while `ringReplace` faults on an index when `gcd(k % n, n)` returns a positive value and
otherwise completes, leaving `S` unchanged. -/
theorem negative_k_behaviour (fuel : Nat) (nums : List Int) (k : Int)
    (hne : nums ≠ []) (hk : k < 0) (hfuel : nums.length ≤ fuel) :
    (Int.tmod k (nums.length : Int) = 0 →
      rotate nums k = .ok nums ∧ reverse fuel nums k = .ok nums
        ∧ ringReplace fuel nums k = .ok nums)
    ∧ (Int.tmod k (nums.length : Int) ≠ 0 →
      rotate nums k = .error .indexOutOfRange
        ∧ reverse fuel nums k = .error .sliceOutOfRange
        ∧ ∃ t, gcd fuel (Int.tmod k (nums.length : Int)) (nums.length : Int) = .ok t
            ∧ ringReplace fuel nums k
                = if t ≤ 0 then .ok nums else .error .indexOutOfRange) := by
  obtain ⟨m, hm, rfl⟩ := neg_of_lt_zero k hk
  have hn := length_pos_of_ne_nil hne
  rw [tmod_neg_nat]
  constructor
  · intro h
    have hr : m % nums.length = 0 := by omega
    have hnoop : isNoop nums (-(m : Int)) = .ok true := by
      rw [isNoop_neg nums m hn hm]; simp [hr]
    refine ⟨rotateWith_of_noop _ nums _ hnoop, reverse_of_noop fuel nums _ hnoop, ?_⟩
    rw [ringReplace_of_tr fuel nums _ _ (ringReplaceTr_neg_multiple fuel nums m hn hr)]
    rfl
  · intro h
    have hr : m % nums.length ≠ 0 := by omega
    refine ⟨rotate_neg_fault nums m hn hr, reverse_neg_fault fuel nums m hn hr (by omega), ?_⟩
    obtain ⟨t, ht, htr⟩ := ringReplaceTr_neg fuel nums m hn hr hfuel
    refine ⟨t, ht, ?_⟩
    rw [ringReplace_of_tr fuel nums _ _ htr]
    by_cases htp : t ≤ 0
    · simp only [htp, if_true]; rfl
    · simp only [htp, if_false]; rfl

/-- Witness of C14, as amended, at `S = [1, 2, 3, 4, 5]`, `k = -2`, fuel `5`, where all
three calls fault; the calls with `k = -5` all leave `S` unchanged. -/
theorem negative_k_behaviour_witness :
    ([1, 2, 3, 4, 5] : List Int) ≠ [] ∧ (-2 : Int) < 0
    ∧ ([1, 2, 3, 4, 5] : List Int).length ≤ 5
    ∧ ringReplace 5 [1, 2, 3, 4, 5] (-2) = .error .indexOutOfRange
    ∧ ringReplace 5 [1, 2, 3, 4, 5] (-5) = .ok [1, 2, 3, 4, 5]
    ∧ ((Int.tmod (-2) (([1, 2, 3, 4, 5] : List Int).length : Int) = 0 →
        rotate [1, 2, 3, 4, 5] (-2) = .ok [1, 2, 3, 4, 5]
          ∧ reverse 5 [1, 2, 3, 4, 5] (-2) = .ok [1, 2, 3, 4, 5]
          ∧ ringReplace 5 [1, 2, 3, 4, 5] (-2) = .ok [1, 2, 3, 4, 5])
      ∧ (Int.tmod (-2) (([1, 2, 3, 4, 5] : List Int).length : Int) ≠ 0 →
        rotate [1, 2, 3, 4, 5] (-2) = .error .indexOutOfRange
          ∧ reverse 5 [1, 2, 3, 4, 5] (-2) = .error .sliceOutOfRange
          ∧ ∃ t, gcd 5 (Int.tmod (-2) (([1, 2, 3, 4, 5] : List Int).length : Int))
                (([1, 2, 3, 4, 5] : List Int).length : Int) = .ok t
              ∧ ringReplace 5 [1, 2, 3, 4, 5] (-2)
                  = if t ≤ 0 then .ok [1, 2, 3, 4, 5] else .error .indexOutOfRange)) :=
  ⟨by decide, by decide, by decide, by decide, by decide,
    negative_k_behaviour 5 [1, 2, 3, 4, 5] (-2) (by decide) (by decide) (by decide)⟩

/-- C14 fails as stated: on `S = [1, 2, 3]` with `k = -1`, `rotate` and `reverse` fault
while `ringReplace` completes (its `gcd(-1, 3)` returns `-1`, so the outer loop is
skipped); on `S = [1, 2, 3, 4, 5]` with `k = -3` likewise (`gcd(-3, 5)` returns `-1`). -/
theorem negative_k_policies_differ :
    rotate [1, 2, 3] (-1) = .error .indexOutOfRange
    ∧ reverse 8 [1, 2, 3] (-1) = .error .sliceOutOfRange
    ∧ gcd 8 (-1) 3 = .ok (-1)
    ∧ ringReplace 8 [1, 2, 3] (-1) = .ok [1, 2, 3]
    ∧ rotate [1, 2, 3, 4, 5] (-3) = .error .indexOutOfRange
    ∧ reverse 8 [1, 2, 3, 4, 5] (-3) = .error .sliceOutOfRange
    ∧ gcd 8 (-3) 5 = .ok (-1)
    ∧ ringReplace 8 [1, 2, 3, 4, 5] (-3) = .ok [1, 2, 3, 4, 5] := by
  decide

/-- C18: `rotate` and `reverse` fail on exactly the same inputs. Over mathematical
integers with Go's truncated remainder, for every sequence `nums` of length `n` and every
integer `k`, given fuel for `n / 2` swaps: `rotate(nums, k)` ends in a run-time error if
and only if `reverse(nums, k)` does, and this happens if and only if `n == 0` and
`k != 0`, or `n > 0`, `k < 0` and `k % n != 0`. -/
theorem rotate_reverse_fail_alike (fuel : Nat) (nums : List Int) (k : Int)
    (hfuel : nums.length / 2 ≤ fuel) :
    (isRuntimeError (rotate nums k) = true ↔ isRuntimeError (reverse fuel nums k) = true)
    ∧ (isRuntimeError (rotate nums k) = true ↔
        ((nums.length = 0 ∧ k ≠ 0)
          ∨ (0 < nums.length ∧ k < 0 ∧ Int.tmod k (nums.length : Int) ≠ 0))) := by
  have hok : ∀ l : List Int, isRuntimeError (Except.ok l : Run (List Int)) = false :=
    fun _ => rfl
  rcases Nat.eq_zero_or_pos nums.length with h0 | hn
  · have hnil : nums = [] := List.length_eq_zero.1 h0
    subst hnil
    obtain ⟨h1, h2⟩ := outcome_on_empty fuel k
    rw [h1, h2]
    by_cases hk : k = 0
    · rw [if_pos hk, hok]
      refine ⟨Iff.rfl, ?_⟩
      constructor
      · intro h; cases h
      · rintro (⟨_, h⟩ | ⟨h, _⟩)
        · exact absurd hk h
        · simp at h
    · rw [if_neg hk]
      refine ⟨Iff.rfl, ?_⟩
      constructor
      · intro _; exact Or.inl ⟨rfl, hk⟩
      · intro _; rfl
  · rcases Int.lt_or_le k 0 with hk | hk
    · obtain ⟨m, hm, rfl⟩ := neg_of_lt_zero k hk
      rw [tmod_neg_nat]
      by_cases hr : m % nums.length = 0
      · have hnoop : isNoop nums (-(m : Int)) = .ok true := by
          rw [isNoop_neg nums m hn hm]; simp [hr]
        have e1 : rotate nums (-(m : Int)) = .ok nums := rotateWith_of_noop _ nums _ hnoop
        rw [e1, reverse_of_noop fuel nums _ hnoop, hok]
        refine ⟨Iff.rfl, ?_⟩
        constructor
        · intro h; cases h
        · rintro (⟨h, _⟩ | ⟨_, _, h⟩)
          · omega
          · exfalso; apply h; omega
      · rw [rotate_neg_fault nums m hn hr, reverse_neg_fault fuel nums m hn hr hfuel]
        refine ⟨⟨fun _ => rfl, fun _ => rfl⟩, ?_⟩
        constructor
        · intro _
          exact Or.inr ⟨hn, hk, by omega⟩
        · intro _; rfl
    · obtain ⟨a, rfl⟩ := Int.eq_ofNat_of_zero_le hk
      rw [rotate_eq_rotR nums a hn, reverse_eq_rotR fuel nums a hn hfuel, hok]
      refine ⟨Iff.rfl, ?_⟩
      constructor
      · intro h; cases h
      · rintro (⟨h, _⟩ | ⟨_, h, _⟩) <;> omega

/-- Witness of C18 at `nums = [1, 2, 3, 4]`, `k = -6`, fuel `2`, where both calls fault;
with `k = -8` both return, and on the empty sequence both fault for `k = 3`. -/
theorem rotate_reverse_fail_alike_witness :
    ([1, 2, 3, 4] : List Int).length / 2 ≤ 2
    ∧ isRuntimeError (rotate [1, 2, 3, 4] (-6)) = true
    ∧ isRuntimeError (reverse 2 [1, 2, 3, 4] (-6)) = true
    ∧ isRuntimeError (rotate [1, 2, 3, 4] (-8)) = false
    ∧ isRuntimeError (reverse 2 [1, 2, 3, 4] (-8)) = false
    ∧ isRuntimeError (rotate [] 3) = true
    ∧ isRuntimeError (reverse 2 [] 3) = true
    ∧ ((isRuntimeError (rotate [1, 2, 3, 4] (-6)) = true
          ↔ isRuntimeError (reverse 2 [1, 2, 3, 4] (-6)) = true)
      ∧ (isRuntimeError (rotate [1, 2, 3, 4] (-6)) = true ↔
          ((([1, 2, 3, 4] : List Int).length = 0 ∧ (-6 : Int) ≠ 0)
            ∨ (0 < ([1, 2, 3, 4] : List Int).length ∧ (-6 : Int) < 0
              ∧ Int.tmod (-6) (([1, 2, 3, 4] : List Int).length : Int) ≠ 0)))) :=
  ⟨by decide, by decide, by decide, by decide, by decide, by decide, by decide,
    rotate_reverse_fail_alike 2 [1, 2, 3, 4] (-6) (by decide)⟩

/-- C19: `ringReplace` silently ignores some negative `k`. For every non-empty `nums` of
length `n` and every `k < 0` such that `r = -(k % n)` (Go's truncated remainder) is
positive and divides `n`, given fuel for one pass of the loop of `gcd`: `gcd(k % n, n)`
returns `k % n`, which is the negative value `-r`; the outer loop makes no pass (nothing
is written); and `ringReplace` returns without error, leaving `nums` unchanged. -/
theorem ringReplace_ignores_negative (fuel : Nat) (nums : List Int) (k : Int)
    (hne : nums ≠ []) (hk : k < 0) (hr : 0 < -(Int.tmod k (nums.length : Int)))
    (hdvd : -(Int.tmod k (nums.length : Int)) ∣ (nums.length : Int)) (hfuel : 1 ≤ fuel) :
    gcd fuel (Int.tmod k (nums.length : Int)) (nums.length : Int)
        = .ok (Int.tmod k (nums.length : Int))
    ∧ Int.tmod k (nums.length : Int) < 0
    ∧ ringReplaceTr fuel nums k = .ok (nums, [])
    ∧ ringReplace fuel nums k = .ok nums := by
  obtain ⟨m, hm, rfl⟩ := neg_of_lt_zero k hk
  have hn := length_pos_of_ne_nil hne
  rw [tmod_neg_nat] at hr hdvd ⊢
  rw [Int.neg_neg] at hr hdvd
  have hd : m % nums.length ∣ nums.length := Int.natCast_dvd_natCast.1 hdvd
  have hr0 : 0 < m % nums.length := by omega
  obtain ⟨f, rfl⟩ : ∃ f, fuel = f + 1 := ⟨fuel - 1, by omega⟩
  have ha : (-((m % nums.length : Nat) : Int)) ≠ 0 := by omega
  have hstep : goMod (nums.length : Int) (-((m % nums.length : Nat) : Int)) = .ok 0 := by
    have h1 : Int.tmod (nums.length : Int) (-((m % nums.length : Nat) : Int)) = 0 := by
      rw [Int.tmod_neg, ← Int.ofNat_tmod, Nat.mod_eq_zero_of_dvd hd]
      rfl
    simp only [goMod, ha, if_false, h1]
  have hgcd : gcd (f + 1) (-((m % nums.length : Nat) : Int)) (nums.length : Int)
      = .ok (-((m % nums.length : Nat) : Int)) := by
    unfold gcd
    simp only [gcdLoop, ha, ne_eq, not_false_eq_true, if_true, hstep, bind, Except.bind,
      gcdLoop_zero]
  have htr : ringReplaceTr (f + 1) nums (-(m : Int)) = .ok (nums, []) := by
    have ht : (-((m % nums.length : Nat) : Int)).toNat = 0 := by omega
    unfold ringReplaceTr
    simp only [goMod_neg_nat m nums.length hn, bind, Except.bind, hgcd, ht, forLoop]
  refine ⟨hgcd, by omega, htr, ?_⟩
  rw [ringReplace_of_tr _ nums _ _ htr]
  rfl

/-- Witness of C19 at `nums = [1, 2, 3, 4, 5, 6]`, `k = -9` (so `k % n = -3`), fuel `1`. -/
theorem ringReplace_ignores_negative_witness :
    ([1, 2, 3, 4, 5, 6] : List Int) ≠ [] ∧ (-9 : Int) < 0
    ∧ 0 < -(Int.tmod (-9) (([1, 2, 3, 4, 5, 6] : List Int).length : Int))
    ∧ -(Int.tmod (-9) (([1, 2, 3, 4, 5, 6] : List Int).length : Int))
        ∣ (([1, 2, 3, 4, 5, 6] : List Int).length : Int)
    ∧ 1 ≤ 1
    ∧ gcd 1 (-3) 6 = .ok (-3)
    ∧ (gcd 1 (Int.tmod (-9) (([1, 2, 3, 4, 5, 6] : List Int).length : Int))
          (([1, 2, 3, 4, 5, 6] : List Int).length : Int)
          = .ok (Int.tmod (-9) (([1, 2, 3, 4, 5, 6] : List Int).length : Int))
      ∧ Int.tmod (-9) (([1, 2, 3, 4, 5, 6] : List Int).length : Int) < 0
      ∧ ringReplaceTr 1 [1, 2, 3, 4, 5, 6] (-9) = .ok ([1, 2, 3, 4, 5, 6], [])
      ∧ ringReplace 1 [1, 2, 3, 4, 5, 6] (-9) = .ok [1, 2, 3, 4, 5, 6]) :=
  ⟨by decide, by decide, by decide, by decide, by decide, by decide,
    ringReplace_ignores_negative 1 [1, 2, 3, 4, 5, 6] (-9)
      (by decide) (by decide) (by decide) (by decide) (by decide)⟩

/-! ## `rotate` with the 64-bit addition of a Go `int` -/

theorem add64_small (x y : Int) (h0 : 0 ≤ x + y) (h1 : x + y < 2 ^ 63) :
    add64 x y = x + y := by
  simp only [add64, wrap64]
  omega

theorem add64_wrapped (x y : Int) (h0 : 2 ^ 63 ≤ x + y) (h1 : x + y < 2 ^ 64) :
    add64 x y = x + y - 2 ^ 64 := by
  simp only [add64, wrap64]
  omega

/-- The copy loop of `rotate`, for any addition that gives the index `(i + k) mod n`
at every `i` below the length. -/
theorem rotateWith_fill (add : Int → Int → Int) (nums : List Int) (k : Nat)
    (hn : 0 < nums.length)
    (hadd : ∀ i : Nat, i < nums.length →
      goMod (add (i : Int) (k : Int)) (nums.length : Int)
        = .ok (((i + k) % nums.length : Nat) : Int)) :
    forLoop (fun i (acc : List Int) => do
        let j ← goMod (add i (k : Int)) nums.length
        let v ← readAt nums i
        writeAt acc j v) nums.length 0 (List.replicate nums.length 0)
      = .ok (rotR nums k) := by
  have h := forLoop_writes (fun i (acc : List Int) => do
        let j ← goMod (add i (k : Int)) nums.length
        let v ← readAt nums i
        writeAt acc j v)
      (fun p => nums.getD ((p + (nums.length - k % nums.length)) % nums.length) 0)
      (fun j => (j + k) % nums.length) nums.length nums.length
      (by
        intro j acc hj hacc
        have hlt : (j + k) % nums.length < acc.length := by
          rw [hacc]; exact Nat.mod_lt _ hn
        simp only [hadd j hj, readAt_nat nums j hj]
        simp only [bind, Except.bind]
        rw [writeAt_nat acc _ _ hlt, fwd_back j k nums.length hj])
      nums.length 0 (List.replicate nums.length 0) (by simp) (by omega)
  have h0 : ((0 : Nat) : Int) = 0 := rfl
  rw [h0] at h
  rw [h]
  congr 1
  apply ext_getD
  · rw [length_applyWrites, length_rotR]; simp
  · intro p hp
    rw [length_applyWrites] at hp
    have hp2 : p < nums.length := by simpa using hp
    rw [getD_applyWrites _ _ _ _ hp, getD_rotR nums k p hp2]
    have hmem : p ∈ List.map (fun j => (j + k) % nums.length) (List.range' 0 nums.length) := by
      rw [List.mem_map]
      refine ⟨(p + (nums.length - k % nums.length)) % nums.length, ?_, back_fwd p k _ hp2⟩
      rw [List.mem_range']
      exact ⟨(p + (nums.length - k % nums.length)) % nums.length, Nat.mod_lt _ hn, by simp⟩
    rw [if_pos hmem]

theorem rotateWith_eq_rotR (add : Int → Int → Int) (nums : List Int) (k : Nat)
    (hn : 0 < nums.length)
    (hadd : ∀ i : Nat, i < nums.length →
      goMod (add (i : Int) (k : Int)) (nums.length : Int)
        = .ok (((i + k) % nums.length : Nat) : Int)) :
    rotateWith add nums (k : Int) = .ok (rotR nums k) := by
  unfold rotateWith
  rw [isNoop_nat nums k hn]
  by_cases h : k % nums.length = 0
  · simp [h, rotR_of_mod_eq_zero nums k h, bind, Except.bind, pure, Except.pure]
  · simp only [h, decide_False, bind, Except.bind]
    have hf := rotateWith_fill add nums k hn hadd
    simp only [bind, Except.bind] at hf
    simp only [Bool.false_eq_true, if_false]
    rw [hf]
    have hc := rotate_copy nums (rotR nums k) (length_rotR nums k)
    simp only [bind, Except.bind] at hc
    exact hc

/-- Where no sum `i + k` of the copy loop exceeds the largest `int`, or where the first
line returns, `rotate` with 64-bit addition computes the reference rotation. -/
theorem rotate64_eq_rotR (nums : List Int) (k : Nat) (hn : 0 < nums.length)
    (h : k % nums.length = 0 ∨ (nums.length : Int) + (k : Int) ≤ 2 ^ 63) :
    rotate64 nums (k : Int) = .ok (rotR nums k) := by
  by_cases hz : k % nums.length = 0
  · have hnoop : isNoop nums (k : Int) = .ok true := by
      rw [isNoop_nat nums k hn]; simp [hz]
    rw [rotR_of_mod_eq_zero nums k hz]
    exact rotateWith_of_noop _ nums _ hnoop
  · have hb : (nums.length : Int) + (k : Int) ≤ 2 ^ 63 := by
      rcases h with h | h
      · exact absurd h hz
      · exact h
    apply rotateWith_eq_rotR add64 nums k hn
    intro i hi
    rw [add64_small _ _ (by omega) (by omega)]
    have hc : ((i : Int) + (k : Int)) = ((i + k : Nat) : Int) := by push_cast; rfl
    rw [hc, goMod_nat _ _ hn]

/-- In a counted loop that completes, the body has completed at every pass. -/
theorem forLoop_ok_steps {σ : Type} (body : Int → σ → Run σ) (rem : Nat) (a : Int)
    (s s1 : σ) (h : forLoop body rem a s = .ok s1) :
    ∀ j : Nat, j < rem → ∃ sj sj1, body (a + (j : Int)) sj = .ok sj1 := by
  induction rem generalizing a s with
  | zero => intro j hj; omega
  | succ rem ih =>
    simp only [forLoop] at h
    split at h
    · cases h
    · next s2 hb =>
      intro j hj
      cases j with
      | zero =>
        refine ⟨s, s2, ?_⟩
        simpa using hb
      | succ j =>
        obtain ⟨sj, sj1, hj1⟩ := ih (a + 1) s2 h j (by omega)
        refine ⟨sj, sj1, ?_⟩
        have e : a + ((j + 1 : Nat) : Int) = a + 1 + (j : Int) := by push_cast; omega
        rw [e]
        exact hj1

/-- If the copy loop of `rotate` completes, every write index was non-negative. -/
theorem fill_indices_nonneg (add : Int → Int → Int) (nums : List Int) (k : Int)
    (init res : List Int)
    (h : forLoop (fun i (acc : List Int) => do
        let j ← goMod (add i k) nums.length
        let v ← readAt nums i
        writeAt acc j v) nums.length 0 init = .ok res) :
    ∀ i : Nat, i < nums.length → 0 ≤ Int.tmod (add (i : Int) k) (nums.length : Int) := by
  intro i hi
  obtain ⟨sj, sj1, hb⟩ := forLoop_ok_steps _ _ _ _ _ h i hi
  rw [Int.zero_add, bind_ok_iff] at hb
  obtain ⟨j, hj, hb⟩ := hb
  rw [bind_ok_iff] at hb
  obtain ⟨v, _, hw⟩ := hb
  have hje : j = Int.tmod (add (i : Int) k) (nums.length : Int) := by
    unfold goMod at hj
    split at hj
    · cases hj
    · injection hj with hj; exact hj.symm
  rw [← hje]
  unfold writeAt at hw
  split at hw
  · next hc => exact hc.1
  · cases hw

/-- With 64-bit addition, if every write index of the copy loop is non-negative, then
every write index is the intended `(i + k) mod n`: at most the sum at `i = n - 1` wraps
around, and then to a multiple of `n`. -/
theorem wrapped_index_eq (n k : Nat) (hn : 0 < n) (hk : (k : Int) < 2 ^ 63)
    (hlen : (n : Int) ≤ 2 ^ 63)
    (hall : ∀ i : Nat, i < n → 0 ≤ Int.tmod (add64 (i : Int) (k : Int)) (n : Int)) :
    ∀ i : Nat, i < n →
      Int.tmod (add64 (i : Int) (k : Int)) (n : Int) = (((i + k) % n : Nat) : Int) := by
  intro i hi
  by_cases hs : (i : Int) + (k : Int) < 2 ^ 63
  · rw [add64_small _ _ (by omega) hs]
    have hc : ((i : Int) + (k : Int)) = ((i + k : Nat) : Int) := by push_cast; rfl
    rw [hc, ← Int.ofNat_tmod]
  · obtain ⟨i0, hi0⟩ : ∃ i0 : Nat, (i0 : Int) + (k : Int) = 2 ^ 63 :=
      ⟨((2 : Int) ^ 63 - (k : Int)).toNat, by omega⟩
    have hi0n : i0 < n := by omega
    have hw0 : add64 (i0 : Int) (k : Int) = -((2 ^ 63 : Nat) : Int) := by
      rw [add64_wrapped _ _ (by omega) (by omega)]
      push_cast
      omega
    have h0 := hall i0 hi0n
    rw [hw0, tmod_neg_nat] at h0
    have hd0 : 2 ^ 63 % n = 0 := by omega
    by_cases hii : i = i0
    · subst hii
      rw [hw0, tmod_neg_nat, hd0]
      have hsum : i + k = 2 ^ 63 := by
        have : ((i + k : Nat) : Int) = ((2 ^ 63 : Nat) : Int) := by push_cast; omega
        exact_mod_cast this
      rw [hsum, hd0]
      rfl
    · exfalso
      have hi1n : i0 + 1 < n := by omega
      have hw1 : add64 ((i0 + 1 : Nat) : Int) (k : Int) = -((2 ^ 63 - 1 : Nat) : Int) := by
        rw [add64_wrapped _ _ (by push_cast; omega) (by push_cast; omega)]
        push_cast
        omega
      have h1 := hall (i0 + 1) hi1n
      rw [hw1, tmod_neg_nat] at h1
      have hd1 : (2 ^ 63 - 1) % n = 0 := by omega
      have hdvd : n ∣ 2 ^ 63 - (2 ^ 63 - 1) :=
        Nat.dvd_sub' (Nat.dvd_of_mod_eq_zero hd0) (Nat.dvd_of_mod_eq_zero hd1)
      have hone : n ∣ 1 := by simpa using hdvd
      have := Nat.le_of_dvd (by omega) hone
      omega

/-- Whenever `rotate` with 64-bit addition completes on a non-empty slice and an `int`
`k >= 0`, its result is the reference rotation. -/
theorem rotate64_complete_eq (nums : List Int) (k : Nat) (hn : 0 < nums.length)
    (hk : (k : Int) < 2 ^ 63) (hlen : (nums.length : Int) ≤ 2 ^ 63) (res : List Int)
    (h : rotate64 nums (k : Int) = .ok res) : res = rotR nums k := by
  have hgoal : rotate64 nums (k : Int) = .ok (rotR nums k) := by
    by_cases hz : k % nums.length = 0
    · exact rotate64_eq_rotR nums k hn (Or.inl hz)
    · apply rotateWith_eq_rotR add64 nums k hn
      have h2 := h
      unfold rotate64 rotateWith at h2
      rw [isNoop_nat nums k hn, bind_ok_iff] at h2
      obtain ⟨c, hc, h2⟩ := h2
      injection hc with hc
      have hcf : c = false := by rw [← hc]; simp [hz]
      subst hcf
      simp only [Bool.false_eq_true, if_false] at h2
      rw [bind_ok_iff] at h2
      obtain ⟨_, _, h2⟩ := h2
      rw [bind_ok_iff] at h2
      obtain ⟨newNums, hfill, _⟩ := h2
      have hall := fill_indices_nonneg add64 nums (k : Int) _ _ hfill
      have hidx := wrapped_index_eq nums.length k hn hk hlen hall
      intro i hi
      have hn0 : (nums.length : Int) ≠ 0 := by omega
      simp only [goMod, hn0, if_false, hidx i hi]
  rw [hgoal] at h
  injection h with h
  exact h.symm

/-! ## Claims that involve `rotate` at every non-negative `int` -/

/-- C2, as amended: equivalence across variants on non-empty sequences, where `rotate`
does not overflow. For every non-empty `S` of length `n` and every `k >= 0` such that
`k % n == 0` or `n + k <= 2^63` (no sum `i + k` of the copy loop of `rotate` exceeds the
largest 64-bit `int`), given fuel for `n` loop passes, `rotate` (with 64-bit addition),
`reverse` and `ringReplace` run on copies of `S` with the same `k` all complete, with one
and the same resulting sequence. -/
theorem variants_agree_nonempty (fuel : Nat) (nums : List Int) (k : Int)
    (hne : nums ≠ []) (hk : 0 ≤ k)
    (hno : Int.tmod k (nums.length : Int) = 0 ∨ (nums.length : Int) + k ≤ 2 ^ 63)
    (hfuel : nums.length ≤ fuel) :
    ∃ res, rotate64 nums k = .ok res ∧ reverse fuel nums k = .ok res
      ∧ ringReplace fuel nums k = .ok res := by
  obtain ⟨k, rfl⟩ := Int.eq_ofNat_of_zero_le hk
  have hn := length_pos_of_ne_nil hne
  have hhalf : nums.length / 2 ≤ fuel := by omega
  have hno2 : k % nums.length = 0 ∨ (nums.length : Int) + (k : Int) ≤ 2 ^ 63 := by
    rcases hno with h | h
    · left
      rw [← Int.ofNat_tmod] at h
      exact_mod_cast h
    · exact Or.inr h
  exact ⟨rotR nums k, rotate64_eq_rotR nums k hn hno2, reverse_eq_rotR fuel nums k hn hhalf,
    ringReplace_eq_rotR fuel nums k hn hfuel⟩

/-- Witness of C2, as amended, at `S = [1, 2, 3, 4, 5, 6, 7]`, `k = 3`, fuel `7`. -/
theorem variants_agree_nonempty_witness :
    ([1, 2, 3, 4, 5, 6, 7] : List Int) ≠ [] ∧ (0 : Int) ≤ 3
      ∧ (Int.tmod 3 (([1, 2, 3, 4, 5, 6, 7] : List Int).length : Int) = 0
          ∨ (([1, 2, 3, 4, 5, 6, 7] : List Int).length : Int) + 3 ≤ 2 ^ 63)
      ∧ ([1, 2, 3, 4, 5, 6, 7] : List Int).length ≤ 7
      ∧ rotate64 [1, 2, 3, 4, 5, 6, 7] 3 = .ok [5, 6, 7, 1, 2, 3, 4]
      ∧ ∃ res, rotate64 [1, 2, 3, 4, 5, 6, 7] 3 = .ok res
          ∧ reverse 7 [1, 2, 3, 4, 5, 6, 7] 3 = .ok res
          ∧ ringReplace 7 [1, 2, 3, 4, 5, 6, 7] 3 = .ok res :=
  ⟨by decide, by decide, Or.inr (by decide), by decide, by decide,
    variants_agree_nonempty 7 [1, 2, 3, 4, 5, 6, 7] 3 (by decide) (by decide)
      (Or.inr (by decide)) (by decide)⟩

/-- C5 fails on the code: with 64-bit `int` addition, the first call
`rotate([1,2,3], 9223372036854775807)` faults at `i = 1` (the sum `i + k` wraps around and
the write index is `-2`), so the sequence is never rotated back; `reverse` and
`ringReplace`, which reduce `k` modulo `n` first, rotate by `k` and then restore `[1,2,3]`
with `(n - k) mod n = 2`; so does `rotate` at the small `k = 4`. -/
theorem rotate_back_overflow_fault :
    (0 : Int) ≤ 9223372036854775807 ∧ (9223372036854775807 : Int) < 2 ^ 63
    ∧ ((3 : Int) - 9223372036854775807) % 3 = 2
    ∧ rotate64 [1, 2, 3] 9223372036854775807 = .error .indexOutOfRange
    ∧ reverse 3 [1, 2, 3] 9223372036854775807 = .ok [3, 1, 2]
    ∧ reverse 3 [3, 1, 2] (((3 : Int) - 9223372036854775807) % 3) = .ok [1, 2, 3]
    ∧ ringReplace 3 [1, 2, 3] 9223372036854775807 = .ok [3, 1, 2]
    ∧ ringReplace 3 [3, 1, 2] (((3 : Int) - 9223372036854775807) % 3) = .ok [1, 2, 3]
    ∧ rotate64 [1, 2, 3] 4 = .ok [3, 1, 2]
    ∧ rotate64 [3, 1, 2] (((3 : Int) - 4) % 3) = .ok [1, 2, 3] := by
  decide

/-- C12: permutation property. For every non-empty `S` of length `n` (an `int`) and every
`int` `k >= 0`: whenever `rotate`, with 64-bit addition, completes, the sequence it leaves
is a permutation of `S`, and it does complete whenever `k % n == 0` or `n + k <= 2^63`;
`reverse` and `ringReplace`, given fuel for `n` loop passes, complete with a permutation
of `S`. In a permutation every value occurs as often as in `S`. -/
theorem result_is_permutation (fuel : Nat) (nums : List Int) (k : Int)
    (hne : nums ≠ []) (hk : 0 ≤ k) (hint : k < 2 ^ 63)
    (hlen : (nums.length : Int) < 2 ^ 63) (hfuel : nums.length ≤ fuel) :
    (∀ res, rotate64 nums k = .ok res → res.Perm nums ∧ ∀ v, res.count v = nums.count v)
    ∧ ((Int.tmod k (nums.length : Int) = 0 ∨ (nums.length : Int) + k ≤ 2 ^ 63) →
        ∃ res, rotate64 nums k = .ok res)
    ∧ (∃ res, reverse fuel nums k = .ok res ∧ res.Perm nums ∧ ∀ v, res.count v = nums.count v)
    ∧ (∃ res, ringReplace fuel nums k = .ok res ∧ res.Perm nums
        ∧ ∀ v, res.count v = nums.count v) := by
  obtain ⟨a, rfl⟩ := Int.eq_ofNat_of_zero_le hk
  have hn := length_pos_of_ne_nil hne
  have hp := rotR_perm nums a
  refine ⟨?_, ?_,
    ⟨rotR nums a, reverse_eq_rotR fuel nums a hn (by omega), hp, fun v => hp.count_eq v⟩,
    ⟨rotR nums a, ringReplace_eq_rotR fuel nums a hn hfuel, hp, fun v => hp.count_eq v⟩⟩
  · intro res hres
    have := rotate64_complete_eq nums a hn hint (by omega) res hres
    subst this
    exact ⟨hp, fun v => hp.count_eq v⟩
  · intro hno
    refine ⟨rotR nums a, rotate64_eq_rotR nums a hn ?_⟩
    rcases hno with h | h
    · left
      rw [← Int.ofNat_tmod] at h
      exact_mod_cast h
    · exact Or.inr h

/-- Witness of C12 at `S = [5, 5, 7, 5]` (a repeated value), `k = 3`, fuel `4`; and the call
`rotate([1, 2], 9223372036854775807)`, whose sum at `i = 1` wraps around to a multiple of
`2`, completes with a permutation. -/
theorem result_is_permutation_witness :
    ([5, 5, 7, 5] : List Int) ≠ [] ∧ (0 : Int) ≤ 3 ∧ (3 : Int) < 2 ^ 63
    ∧ (([5, 5, 7, 5] : List Int).length : Int) < 2 ^ 63
    ∧ ([5, 5, 7, 5] : List Int).length ≤ 4
    ∧ rotate64 [5, 5, 7, 5] 3 = .ok [5, 7, 5, 5]
    ∧ rotate64 [1, 2] 9223372036854775807 = .ok [2, 1]
    ∧ ((∀ res, rotate64 [5, 5, 7, 5] 3 = .ok res →
          res.Perm [5, 5, 7, 5] ∧ ∀ v, res.count v = ([5, 5, 7, 5] : List Int).count v)
      ∧ ((Int.tmod 3 (([5, 5, 7, 5] : List Int).length : Int) = 0
            ∨ (([5, 5, 7, 5] : List Int).length : Int) + 3 ≤ 2 ^ 63) →
          ∃ res, rotate64 [5, 5, 7, 5] 3 = .ok res)
      ∧ (∃ res, reverse 4 [5, 5, 7, 5] 3 = .ok res ∧ res.Perm [5, 5, 7, 5]
        ∧ ∀ v, res.count v = ([5, 5, 7, 5] : List Int).count v)
      ∧ (∃ res, ringReplace 4 [5, 5, 7, 5] 3 = .ok res ∧ res.Perm [5, 5, 7, 5]
        ∧ ∀ v, res.count v = ([5, 5, 7, 5] : List Int).count v)) :=
  ⟨by decide, by decide, by decide, by decide, by decide, by decide, by decide,
    result_is_permutation 4 [5, 5, 7, 5] 3 (by decide) (by decide) (by decide) (by decide)
      (by decide)⟩

/-- C17 fails on the code: with `a = 9223372036854775806` and `b = 1` (so `a + b` is the
largest `int` and does not overflow) on `[1, 2, 3]`, the call of `rotate` with `a` returns
at its first line (`a % 3 == 0`) and the call with `b` gives `[3, 1, 2]`, while the single
call with `a + b` faults at `i = 1`, where `i + k` wraps around and the write index is `-2`;
`reverse` and `ringReplace`, which reduce `k` modulo `n` first, compose as claimed. -/
theorem rotations_compose_overflow_fault :
    (0 : Int) ≤ 9223372036854775806 ∧ (0 : Int) ≤ 1
    ∧ (9223372036854775806 : Int) + 1 < 2 ^ 63
    ∧ rotate64 [1, 2, 3] 9223372036854775806 = .ok [1, 2, 3]
    ∧ rotate64 [1, 2, 3] 1 = .ok [3, 1, 2]
    ∧ rotate64 [1, 2, 3] (9223372036854775806 + 1) = .error .indexOutOfRange
    ∧ reverse 3 [1, 2, 3] 9223372036854775806 = .ok [1, 2, 3]
    ∧ reverse 3 [1, 2, 3] 1 = .ok [3, 1, 2]
    ∧ reverse 3 [1, 2, 3] (9223372036854775806 + 1) = .ok [3, 1, 2]
    ∧ ringReplace 3 [1, 2, 3] 9223372036854775806 = .ok [1, 2, 3]
    ∧ ringReplace 3 [1, 2, 3] 1 = .ok [3, 1, 2]
    ∧ ringReplace 3 [1, 2, 3] (9223372036854775806 + 1) = .ok [3, 1, 2] := by
  decide

end RotateArray
